import Mathlib

/-!
Verification development for the mathematical expression evaluation engine of
the maths-soc-source repository (`app/utils/math_engine.py`, version 4.0).

The engine is a Python module built on sympy.  We give a shallow embedding:

* all pure string manipulation of the module (`_basic_string_normalization`,
  `_is_latex_expression`, `_minimal_latex_cleanup`, the `=`-splitting in
  `_parse_to_sympy`) is translated directly into executable Lean functions on
  `List Char` / `String`;
* every call into the external sympy / latex2sympy2 libraries is a field of an
  oracle structure `MathEnv E` (`E` is the type of sympy `Expr` values).  A
  library call that can raise is modelled as `Except Unit _`; Python
  `try/except` blocks are translated as explicit matches on those results.
  Concrete instantiations of the oracle used in theorems document, field by
  field, the actual sympy behaviour they mirror;
* `random.choice` draws are modelled by an explicit stream `g : Nat → Nat` of
  choice indices (each call to `random.choice(lst)` consumes one index and
  picks `lst[g i % len(lst)]`); this makes the engine's use of the
  process-global RNG an explicit input;
* Python floats produced by `complex(val.evalf())` are modelled by `PyFloat`
  (NaN, ±infinity, or an exact rational), an exact-rational idealization of
  IEEE floats; `abs(val) > tol` on a complex value with finite parts is
  modelled exactly as `re² + im² > tol²`.

Unicode-specific behaviour of Python's `str.lower`, `\s` and `\d` outside
ASCII is not modelled: the Lean translation lower-cases `A`-`Z`, and treats
the ASCII whitespace/digit classes, which is faithful on ASCII input.
-/

set_option autoImplicit false

deriving instance DecidableEq for Except

namespace MathEngine

/-! ## Character classes (ASCII fragments of Python's str methods / re classes) -/

/-- The whitespace characters of Python's `\s` / `str.strip` (ASCII
fragment): space, tab, newline, carriage return, vertical tab, form feed. -/
def spaceChars : List Char := [' ', '\t', '\n', '\r', '\x0b', '\x0c']

/-- Python whitespace test (ASCII fragment). -/
def pySpace (c : Char) : Bool := decide (c ∈ spaceChars)

/-- The 26 upper-case ASCII letters paired with their lower-case forms
(the ASCII fragment of `str.lower`). -/
def upperLower : List (Char × Char) :=
  [('A','a'), ('B','b'), ('C','c'), ('D','d'), ('E','e'), ('F','f'),
   ('G','g'), ('H','h'), ('I','i'), ('J','j'), ('K','k'), ('L','l'),
   ('M','m'), ('N','n'), ('O','o'), ('P','p'), ('Q','q'), ('R','r'),
   ('S','s'), ('T','t'), ('U','u'), ('V','v'), ('W','w'), ('X','x'),
   ('Y','y'), ('Z','z')]

/-- ASCII upper-case letter `A`-`Z`. -/
def isUpperAscii (c : Char) : Bool := decide (c ∈ upperLower.map Prod.fst)

/-- The ASCII digits (Python regex `\d`, ASCII fragment). -/
def digitChars : List Char := ['0','1','2','3','4','5','6','7','8','9']

/-- ASCII digit `0`-`9`. -/
def isAsciiDigit (c : Char) : Bool := decide (c ∈ digitChars)

/-- The ASCII letters (Python regex class `[a-zA-Z]`). -/
def alphaChars : List Char :=
  ['a','b','c','d','e','f','g','h','i','j','k','l','m',
   'n','o','p','q','r','s','t','u','v','w','x','y','z'] ++ upperLower.map Prod.fst

/-- ASCII letter `a`-`z` or `A`-`Z`. -/
def isAsciiAlpha (c : Char) : Bool := decide (c ∈ alphaChars)

/-- Python `str.lower`, ASCII fragment: map `A`-`Z` to `a`-`z`, fix all other
characters. -/
def asciiLower (c : Char) : Char :=
  match upperLower.find? (fun p => p.1 = c) with
  | some p => p.2
  | none => c

/-! ## List-of-characters machinery for the string pipeline -/

/-- Boolean prefix test on character lists. -/
def pfxB : List Char → List Char → Bool
  | [], _ => true
  | _ :: _, [] => false
  | a :: p, b :: l => a = b && pfxB p l

/-- Python `str.strip()`: drop leading and trailing whitespace. -/
def trimPy (cs : List Char) : List Char :=
  ((cs.dropWhile pySpace).reverse.dropWhile pySpace).reverse

/-- Fuel-based worker for `replaceList`; each step consumes at least one
input character, so `cs.length` fuel always suffices. -/
def replaceListF (pat rep : List Char) : ℕ → List Char → List Char
  | 0, cs => cs
  | _ + 1, [] => []
  | fuel + 1, c :: cs' =>
    if pat ≠ [] ∧ pfxB pat (c :: cs') = true then
      rep ++ replaceListF pat rep fuel (List.drop pat.length (c :: cs'))
    else
      c :: replaceListF pat rep fuel cs'

/-- Python `str.replace(pat, rep)` for a non-empty `pat`: replace
non-overlapping occurrences left to right; the replacement text is not
re-scanned. -/
def replaceList (pat rep : List Char) (cs : List Char) : List Char :=
  replaceListF pat rep cs.length cs

/-- Whether `pat` occurs as a contiguous substring (used for Python's
`in` test on strings and to reason about `str.replace`). -/
def hasMatch (pat : List Char) : List Char → Bool
  | [] => false
  | c :: cs => pfxB pat (c :: cs) || hasMatch pat cs

/-- Python `s.split(sep, 1)` for a single-character separator that is known to
occur: the part before the first occurrence of `sep` and the part after it. -/
def splitFirst (sep : Char) : List Char → (List Char × List Char)
  | [] => ([], [])
  | c :: cs =>
    if c = sep then ([], cs)
    else
      let (l, r) := splitFirst sep cs
      (c :: l, r)

/-- One pass of Python `re.sub(r"(\d)([a-zA-Z])", r"\1*\2", s)`: insert `*`
between a digit and an immediately following letter; a match consumes both
characters, and scanning resumes after the match. -/
def dlScan : List Char → List Char
  | [] => []
  | [c] => [c]
  | c :: d :: rest =>
    if isAsciiDigit c && isAsciiAlpha d then c :: '*' :: d :: dlScan rest
    else c :: dlScan (d :: rest)

/-- One pass of Python `re.sub(r"([a-zA-Z])\(", r"\1*(", s)`: insert `*`
between a letter and an immediately following opening parenthesis. -/
def lpScan : List Char → List Char
  | [] => []
  | [c] => [c]
  | c :: d :: rest =>
    if isAsciiAlpha c && d = '(' then c :: '*' :: d :: lpScan rest
    else c :: lpScan (d :: rest)

/-! ## The fallback string normalizer (`_basic_string_normalization`) -/

/-- The function names the normalizer protects from spurious `*`-insertion
before their argument parenthesis (`function_names` in the source, in source
order). -/
def fnNames : List (List Char) :=
  [['l','o','g'], ['l','n'], ['e','x','p'], ['s','q','r','t'],
   ['s','i','n'], ['c','o','s'], ['t','a','n'],
   ['a','s','i','n'], ['a','c','o','s'], ['a','t','a','n'],
   ['s','i','n','h'], ['c','o','s','h'], ['t','a','n','h']]

/-- The Python f-string `f"{fn}("`. -/
def fnPat (fn : List Char) : List Char := fn ++ ['(']

/-- The Python f-string `f"__FN__{fn}__("`, the temporary protection marker. -/
def fnMarker (fn : List Char) : List Char :=
  '_' :: '_' :: 'F' :: 'N' :: '_' :: '_' :: (fn ++ ['_', '_', '('])

/-- The protection loop `for fn in function_names: s = s.replace(f"{fn}(", f"__FN__{fn}__(")`. -/
def protectAll (cs : List Char) : List Char :=
  fnNames.foldl (fun s fn => replaceList (fnPat fn) (fnMarker fn) s) cs

/-- The restoration loop `for fn in function_names: s = s.replace(f"__FN__{fn}__(", f"{fn}(")`. -/
def unprotectAll (cs : List Char) : List Char :=
  fnNames.foldl (fun s fn => replaceList (fnMarker fn) (fnPat fn) s) cs

/-- Lines 465-470 of `_basic_string_normalization`: `strip()`, removal of the
literal delimiter sequences `\(`, `\)`, `\[`, `\]`, `$$`, `$`, then
whitespace removal (`re.sub(r"\s+", "", s)`) and `.lower()`. -/
def bsnMid (cs : List Char) : List Char :=
  let s := trimPy cs
  let s := replaceList ['\\', '('] [] s
  let s := replaceList ['\\', ')'] [] s
  let s := replaceList ['\\', '['] [] s
  let s := replaceList ['\\', ']'] [] s
  let s := replaceList ['$', '$'] [] s
  let s := replaceList ['$'] [] s
  let s := (s.filter (fun c => !pySpace c)).map asciiLower
  s

/-- Line 472: `s = s.replace("^", "**")`. -/
def bsnCaret (cs : List Char) : List Char :=
  replaceList ['^'] ['*', '*'] cs

/--
`ExpressionNormalizer._basic_string_normalization` (lines 461-497): the very
conservative fallback string normalization.  Stages, in source order: strip,
math-mode delimiter removal, whitespace removal + lower-casing, `^`→`**`,
protection of known function applications, digit-letter `*`-insertion,
letter-parenthesis `*`-insertion, restoration of protected applications.
-/
def basic_string_normalization (s : String) : String :=
  String.mk (unprotectAll (lpScan (dlScan (protectAll (bsnCaret (bsnMid s.data))))))

/-! ## LaTeX heuristics of the parser -/

/-- Whether some backslash is immediately followed by an ASCII letter
(the regex `\\[a-zA-Z]+`, as a containment test). -/
def hasBackslashCommand : List Char → Bool
  | [] => false
  | ['\\'] => false
  | '\\' :: c :: rest => isAsciiAlpha c || hasBackslashCommand (c :: rest)
  | _ :: rest => hasBackslashCommand rest

/--
`_is_latex_expression` (lines 50-68): best-effort heuristic for LaTeX input.
True when the string contains `$`, `\(` or `\[`, or matches one of the
patterns `\frac{`, `\sqrt{`, `\left` + one of `([{`, `\right` + one of `)]}`,
a backslash command, `^{` or `_{` (each regex is a plain containment test).
-/
def is_latex_expression (cs : List Char) : Bool :=
  cs.contains '$' || hasMatch ['\\', '('] cs || hasMatch ['\\', '['] cs ||
  hasMatch (['\\', 'f', 'r', 'a', 'c'] ++ ['{']) cs ||
  hasMatch (['\\', 's', 'q', 'r', 't'] ++ ['{']) cs ||
  hasMatch ['\\', 'l', 'e', 'f', 't', '('] cs ||
  hasMatch ['\\', 'l', 'e', 'f', 't', '['] cs ||
  hasMatch (['\\', 'l', 'e', 'f', 't'] ++ ['{']) cs ||
  hasMatch ['\\', 'r', 'i', 'g', 'h', 't', ')'] cs ||
  hasMatch ['\\', 'r', 'i', 'g', 'h', 't', ']'] cs ||
  hasMatch (['\\', 'r', 'i', 'g', 'h', 't'] ++ ['}']) cs ||
  hasBackslashCommand cs ||
  hasMatch (['^'] ++ ['{']) cs ||
  hasMatch (['_'] ++ ['{']) cs

/-- One global pass of `re.sub(r"\\CMD\{([^}]+)\}", r"\1", s)` for a command
name `cmd` (used for `\mathrm{...}` and `\operatorname{...}`): wherever
`\cmd{` is followed by a non-empty brace-free body and a closing `}`, keep
only the body; scanning resumes after the closing brace. -/
def stripWrapper (cmd : List Char) (cs : List Char) : List Char :=
  go cs.length cs
where
  pat : List Char := ('\\' :: cmd) ++ ['{']
  go : Nat → List Char → List Char
  | 0, rest => rest
  | _ + 1, [] => []
  | fuel + 1, c :: rest =>
    if pfxB pat (c :: rest) then
      let afterPat := List.drop pat.length (c :: rest)
      let body := afterPat.takeWhile (fun x => x ≠ '}')
      let tail := afterPat.dropWhile (fun x => x ≠ '}')
      match body, tail with
      | _ :: _, _ :: tail' => body ++ go fuel tail'
      | _, _ => c :: go fuel rest
    else c :: go fuel rest

/--
`_minimal_latex_cleanup` (lines 253-272): light-weight LaTeX cleanup applied
before retrying latex2sympy.  Removes math-mode markers, `\left`/`\right`,
aliases `\ln`→`\log`, `\cdot`/`\times`→`*`, `\div`→`/`, and unwraps
`\mathrm{...}` / `\operatorname{...}`.
-/
def minimal_latex_cleanup (cs : List Char) : List Char :=
  let s := replaceList ['\\', '('] [] cs
  let s := replaceList ['\\', ')'] [] s
  let s := replaceList ['\\', '['] [] s
  let s := replaceList ['\\', ']'] [] s
  let s := replaceList ['$', '$'] [] s
  let s := replaceList ['$'] [] s
  let s := replaceList ['\\', 'l', 'e', 'f', 't'] [] s
  let s := replaceList ['\\', 'r', 'i', 'g', 'h', 't'] [] s
  let s := replaceList ['\\', 'l', 'n'] ['\\', 'l', 'o', 'g'] s
  let s := replaceList ['\\', 'c', 'd', 'o', 't'] ['*'] s
  let s := replaceList ['\\', 't', 'i', 'm', 'e', 's'] ['*'] s
  let s := replaceList ['\\', 'd', 'i', 'v'] ['/'] s
  let s := stripWrapper ['m', 'a', 't', 'h', 'r', 'm'] s
  let s := stripWrapper ['o', 'p', 'e', 'r', 'a', 't', 'o', 'r', 'n', 'a', 'm', 'e'] s
  s

/-! ## The symbolic layer: objects, oracle, numeric values -/

/-- The relation kinds of sympy relationals (`Eq`, `Ne`, `Lt`, `Le`, `Gt`,
`Ge`); only `eq` participates in equivalence reasoning. -/
inductive RelKind : Type
  | eq | ne | lt | le | gt | ge
deriving DecidableEq

/-- The string sympy exposes as `rel_op` for each relation kind
(used by `_to_stable_string`). -/
def relOpStr : RelKind → String
  | .eq => "=="
  | .lt => "<"
  | .gt => ">"
  | .ne => "!="
  | .le => "<="
  | .ge => ">="

/-- A parsed sympy object, as the engine's `isinstance` tests see it:
a scalar expression (`sp.Expr`), a relational with two expression sides
(`Relational`), or any other `Basic` object (e.g. a `BooleanAtom`, which is
neither `Expr` nor `Relational`). -/
inductive Sym (E : Type) : Type
  | expr  (e : E)
  | rel   (k : RelKind) (lhs rhs : E)
  | other (e : E)
deriving DecidableEq

/-- A Python float: NaN, an infinity, or a finite value (idealized as an
exact rational). -/
inductive PyFloat : Type
  | nan
  | pinf
  | ninf
  | fin (q : ℚ)
deriving DecidableEq

/-- The result of Python `complex(val.evalf())`: real and imaginary part. -/
structure CVal : Type where
  re : PyFloat
  im : PyFloat
deriving DecidableEq

/-- The guard `math.isnan(val.real) or math.isnan(val.imag) or
math.isinf(val.real) or math.isinf(val.imag)`. -/
def CVal.isNanOrInf : CVal → Bool
  | ⟨.fin _, .fin _⟩ => false
  | _ => true

/-- The rational inequality `t² < a² + b²` written over the integer
numerators and (positive) denominators by cross-multiplication, so that it
evaluates by integer arithmetic. -/
def sqSumGt (t a b : ℚ) : Bool :=
  decide (t.num * t.num * ((a.den : ℤ) * a.den) * ((b.den : ℤ) * b.den)
    < (a.num * a.num * ((b.den : ℤ) * b.den) + b.num * b.num * ((a.den : ℤ) * a.den))
      * ((t.den : ℤ) * t.den))

/-- Python `abs(val) > tol` for a complex `val` with finite parts:
`√(re² + im²) > tol` iff `re² + im² > tol²` (for `tol ≥ 0`); NaN/infinite
parts never reach this test in the probe loop. -/
def absGtTolSq (v : CVal) (tol : ℚ) : Bool :=
  match v with
  | ⟨.fin a, .fin b⟩ => sqSumGt tol a b
  | _ => false

/-- Python `abs(val) < tol` for a complex `val` (constant branch of
`_numeric_equivalence`; no NaN/inf guard there, and `abs` of a NaN or
infinite complex value is never `< tol`). -/
def absLtTolSq (v : CVal) (tol : ℚ) : Bool :=
  match v with
  | ⟨.fin a, .fin b⟩ =>
    decide ((a.num * a.num * ((b.den : ℤ) * b.den) + b.num * b.num * ((a.den : ℤ) * a.den))
        * ((tol.den : ℤ) * tol.den)
      < tol.num * tol.num * ((a.den : ℤ) * a.den) * ((b.den : ℤ) * b.den))
  | _ => false

/--
The oracle for the external sympy / latex2sympy2 libraries.  `E` is the type
of sympy `Expr`-like values.  Each field models one library entry point used
by the engine; a call that can raise a Python exception is `Except Unit _`.
Pure attribute accesses and structural operations are modelled as total.
-/
structure MathEnv (E : Type) : Type where
  /-- Whether `latex2sympy2` imported successfully (`LATEX2SYMPY_AVAILABLE`). -/
  latexAvailable : Bool
  /-- `latex2sympy(s)` followed by `_ensure_sympy_expr` (which never raises:
  it falls back to `sp.Symbol(str(obj))`); errors are latex2sympy's own. -/
  latex2sympy : String → Except Unit (Sym E)
  /-- `parse_expr(s, local_dict=..., transformations=...)` with the fixed
  symbol table and transformations built in `__init__`. -/
  parse_expr : String → Except Unit (Sym E)
  /-- `sp.sympify(s)` on a string (the last-ditch parse). -/
  sympify_str : String → Except Unit (Sym E)
  /-- `sp.Eq(a, b)` as a constructor call on two parsed objects (it may
  evaluate, e.g. to a `BooleanAtom`, or raise on unsupported arguments). -/
  mkEq : Sym E → Sym E → Except Unit (Sym E)
  /-- `expr.func(lhs, rhs)` for a non-`Eq` relational `expr`. -/
  mkRel : RelKind → Sym E → Sym E → Except Unit (Sym E)
  /-- Subtraction of sympy expressions (`a - b`). -/
  sub : E → E → E
  /-- `sp.sympify(expr)` on an already-parsed expression. -/
  sympify_e : E → Except Unit E
  /-- `sp.simplify(e)`. -/
  simplify : E → Except Unit E
  /-- `sp.together(e)`. -/
  together : E → Except Unit E
  /-- `sp.cancel(e)`. -/
  cancel : E → Except Unit E
  /-- `sp.expand_log(e, force=True)`. -/
  expand_log : E → Except Unit E
  /-- `sp.logcombine(e, force=True)`. -/
  logcombine : E → Except Unit E
  /-- `sp.powsimp(e, force=True, deep=True)`. -/
  powsimp : E → Except Unit E
  /-- `sp.powdenest(e, force=True)`. -/
  powdenest : E → Except Unit E
  /-- `sp.expand_mul(e)`. -/
  expand_mul : E → Except Unit E
  /-- `sp.factor_terms(e)`. -/
  factor_terms : E → Except Unit E
  /-- Lines 330-331: if the expression is an `Add`, sort its ordered terms by
  the lexical string printer and rebuild the sum; otherwise the identity. -/
  sort_add_terms : E → Except Unit E
  /-- The structural test `e == 0` (sympy `Basic.__eq__` never raises). -/
  eq_zero : E → Bool
  /-- `sympy.printing.str.sstr(e, order="lex")`. -/
  sstr : E → Except Unit String
  /-- Python `str(obj)` (the `except` branch of `_to_stable_string`). -/
  raw_str : Sym E → String
  /-- `expr.free_symbols`, as the list of symbol names (attribute access,
  total); the engine sorts it before use. -/
  free_symbols : E → List String
  /-- `complex(diff.evalf())` on a constant difference. -/
  eval_const : E → Except Unit CVal
  /-- `complex(diff.subs(m).evalf())` at an integer sample map `m`
  (`TypeError`/domain errors are the `.error` case). -/
  eval_at : E → List (String × ℤ) → Except Unit CVal

/-- Translation of a Python `try: BODY except: HANDLER` where `BODY` is an
`Except`-valued computation. -/
def tryE {α : Type} (body : Except Unit α) (handler : Unit → Except Unit α) :
    Except Unit α :=
  match body with
  | .ok a => .ok a
  | .error e => handler e

/-! ## The engine translation proper -/

variable {E : Type}

/--
`_parse_to_sympy` (lines 194-251).  Ordered fallback chain: latex2sympy on
the stripped string; if that fails and the string looks LaTeX-like, a minimal
cleanup and one retry; then the `parse_expr` fallback (splitting a single `=`
that is not `==` into `sp.Eq(left, right)`); finally `sp.sympify`, whose
failure propagates (`raise`).
-/
def parse_to_sympy (env : MathEnv E) (s0 : String) : Except Unit (Sym E) :=
  let cs := trimPy s0.data
  let s := String.mk cs
  let fallback : Except Unit (Sym E) :=
    tryE
      (if cs.contains '=' && !hasMatch ['=', '='] cs then
        let (l, r) := splitFirst '=' cs
        (env.parse_expr (String.mk l)).bind fun le =>
        (env.parse_expr (String.mk r)).bind fun re =>
        env.mkEq le re
      else
        env.parse_expr s)
      (fun _ => env.sympify_str s)
  if env.latexAvailable then
    match env.latex2sympy s with
    | .ok e => .ok e
    | .error _ =>
      if is_latex_expression cs then
        match env.latex2sympy (String.mk (minimal_latex_cleanup cs)) with
        | .ok e => .ok e
        | .error _ => fallback
      else fallback
  else fallback

/-- The `try`-body of `_canonicalize_expr` (lines 301-333): the fixed
simplification pipeline.  The log stage (lines 312-316) has its own local
`try/except pass`: a failure there keeps the last successfully assigned
value and the pipeline continues. -/
def canonicalize_exprT (env : MathEnv E) (e0 : E) : Except Unit E := do
  let e ← env.sympify_e e0
  let e ← env.simplify e
  let e ← env.together e
  let e ← env.cancel e
  let e :=
    match env.expand_log e with
    | .error _ => e
    | .ok e1 =>
      match env.logcombine e1 with
      | .error _ => e1
      | .ok e2 => e2
  let e ← env.powsimp e
  let e ← env.powdenest e
  let e ← env.expand_mul e
  let e ← env.factor_terms e
  let e ← env.simplify e
  env.sort_add_terms e

/-- `_canonicalize_expr` (lines 296-335): run the pipeline; any uncaught
failure returns the unsimplified input (outer `except: return expr`). -/
def canonicalize_expr (env : MathEnv E) (e0 : E) : E :=
  match canonicalize_exprT env e0 with
  | .ok e => e
  | .error _ => e0

/-- `_canonicalize` (lines 278-294): for a relational, canonicalize both
sides and rebuild (`sp.Eq` for an equality, `expr.func` otherwise); otherwise
canonicalize the expression itself. -/
def canonicalize (env : MathEnv E) : Sym E → Except Unit (Sym E)
  | .rel k l r =>
    let lhs := canonicalize_expr env l
    let rhs := canonicalize_expr env r
    if k = RelKind.eq then env.mkEq (.expr lhs) (.expr rhs)
    else env.mkRel k (.expr lhs) (.expr rhs)
  | .expr e => .ok (.expr (canonicalize_expr env e))
  | .other e => .ok (.other (canonicalize_expr env e))

/-- `_to_stable_string` (lines 337-346): lexical-order printing; a relational
prints as `"<lhs> <rel_op> <rhs>"` with both sides canonicalized (again); any
printing failure falls back to `str(expr)`. -/
def to_stable_string (env : MathEnv E) : Sym E → String
  | .rel k l r =>
    match env.sstr (canonicalize_expr env l) with
    | .error _ => env.raw_str (.rel k l r)
    | .ok a =>
      match env.sstr (canonicalize_expr env r) with
      | .error _ => env.raw_str (.rel k l r)
      | .ok b => a ++ " " ++ relOpStr k ++ " " ++ b
  | .expr e =>
    match env.sstr e with
    | .ok a => a
    | .error _ => env.raw_str (.expr e)
  | .other e =>
    match env.sstr e with
    | .ok a => a
    | .error _ => env.raw_str (.other e)

/-- `_difference_form` (lines 352-380): the difference expression whose
zero-ness implies equivalence; `none` for relation kinds other than `Eq` and
for objects that are neither `Expr` nor `Eq`-relational. -/
def difference_form (env : MathEnv E) : Sym E → Sym E → Option E
  | .rel k1 l1 r1, .rel k2 l2 r2 =>
    if k1 = RelKind.eq ∧ k2 = RelKind.eq then
      some (canonicalize_expr env (env.sub (env.sub l1 r1) (env.sub l2 r2)))
    else none
  | .rel k l r, .expr e =>
    if k = RelKind.eq then some (canonicalize_expr env (env.sub (env.sub l r) e))
    else none
  | .expr e, .rel k l r =>
    if k = RelKind.eq then some (canonicalize_expr env (env.sub e (env.sub l r)))
    else none
  | .expr a, .expr b => some (canonicalize_expr env (env.sub a b))
  | _, _ => none

/-- `_is_zero_symbolically` (lines 382-400): canonicalize and test `== 0`;
then `simplify`, `together`, `cancel`, `simplify`, testing `== 0` along the
way; any failure yields `False`. -/
def is_zero_symbolically (env : MathEnv E) (e0 : E) : Bool :=
  let e1 := canonicalize_expr env e0
  if env.eq_zero e1 then true
  else
    match env.simplify e1 with
    | .error _ => false
    | .ok e2 =>
      if env.eq_zero e2 then true
      else
        match env.together e2 with
        | .error _ => false
        | .ok e3 =>
          match env.cancel e3 with
          | .error _ => false
          | .ok e4 =>
            match env.simplify e4 with
            | .error _ => false
            | .ok e5 => env.eq_zero e5

/-- `_structural_equivalence` (lines 446-455): compare canonicalized stable
strings; any failure yields `False`. -/
def structural_equivalence (env : MathEnv E) (e1 e2 : Sym E) : Bool :=
  match canonicalize env e1, canonicalize env e2 with
  | .ok c1, .ok c2 => to_stable_string env c1 == to_stable_string env c2
  | _, _ => false

/-! ### Numeric probing (`_numeric_equivalence`, lines 402-444) -/

/-- `domain = list(range(-5, 6))`. -/
def sampleDomain : List ℤ := [-5, -4, -3, -2, -1, 0, 1, 2, 3, 4, 5]

/-- The non-zero replacement candidates `[1, -1, 2, -2, 3, -3]`. -/
def nzChoices : List ℤ := [1, -1, 2, -2, 3, -3]

/-- `random.choice(l)` at draw index `r` of the stream. -/
def pyChoice (l : List ℤ) (r : ℕ) : ℤ := l.getD (r % l.length) 0

/-- Draw a sample value for one symbol, consuming one or two stream indices:
`cand = random.choice(domain)`, and if `cand == 0`,
`cand = random.choice([1, -1, 2, -2, 3, -3])`. -/
def drawOne (g : ℕ → ℕ) (i : ℕ) : ℤ × ℕ :=
  let cand := pyChoice sampleDomain (g i)
  if cand = 0 then (pyChoice nzChoices (g (i + 1)), i + 2)
  else (cand, i + 1)

/-- Build `subs_map` over the sorted symbol list. -/
def drawMap (g : ℕ → ℕ) : List String → ℕ → (List (String × ℤ) × ℕ)
  | [], i => ([], i)
  | sym :: rest, i =>
    let (v, j) := drawOne g i
    let (m, k) := drawMap g rest j
    ((sym, v) :: m, k)

/-- The attempt loop of `_numeric_equivalence`: `attempts` iterations remain
(of the initial `trials * 3`), `t` successful trials are still required, `i`
is the RNG stream position.  A sample that fails to evaluate or is
NaN/infinite is discarded; a successful sample with `abs(val) > tol` rejects
immediately; after `t` in-tolerance successes the probe accepts; an exhausted
attempt budget is the conservative `False`. -/
def probeLoop (env : MathEnv E) (g : ℕ → ℕ) (diff : E) (syms : List String)
    (tol : ℚ) : ℕ → ℕ → ℕ → Bool
  | 0, _, _ => false
  | a + 1, t, i =>
    let (m, j) := drawMap g syms i
    match env.eval_at diff m with
    | .error _ => probeLoop env g diff syms tol a t j
    | .ok v =>
      if v.isNanOrInf then probeLoop env g diff syms tol a t j
      else if absGtTolSq v tol then false
      else if t - 1 = 0 then true
      else probeLoop env g diff syms tol a (t - 1) j

/-- The number of attempts among the first `a` (starting at stream position
`i`) whose sample evaluates successfully to a finite value — the trials the
probe loop can count towards its required successes; defined by the same
drawing discipline as `probeLoop`, without the early exits. -/
def countSuccesses (env : MathEnv E) (g : ℕ → ℕ) (diff : E)
    (syms : List String) : ℕ → ℕ → ℕ
  | 0, _ => 0
  | a + 1, i =>
    let (m, j) := drawMap g syms i
    match env.eval_at diff m with
    | .error _ => countSuccesses env g diff syms a j
    | .ok v =>
      if v.isNanOrInf then countSuccesses env g diff syms a j
      else countSuccesses env g diff syms a j + 1

/-- Insertion of a string into a sorted list (ascending). -/
def insertStr (a : String) : List String → List String
  | [] => [a]
  | b :: bs => if a ≤ b then a :: b :: bs else b :: insertStr a bs

/-- `sorted(list(...), key=lambda s: s.name)`: sort symbol names
ascending. -/
def sortStrs (l : List String) : List String := l.foldr insertStr []

/-- The default tolerance `tol = 1e-9` (idealized as an exact rational). -/
def tolQ : ℚ := mkRat 1 1000000000

/-- `_numeric_equivalence(diff, trials=8, tol=1e-9)` (lines 402-444): for a
constant difference, a single `abs(complex(diff.evalf())) < tol` test (any
failure is `False`); otherwise the attempt loop with budget `trials * 3`. -/
def numeric_equivalence (env : MathEnv E) (g : ℕ → ℕ) (diff : E)
    (trials : ℕ) (tol : ℚ) : Bool :=
  let syms := sortStrs (env.free_symbols diff)
  match syms with
  | [] =>
    match env.eval_const diff with
    | .ok v => absLtTolSq v tol
    | .error _ => false
  | _ :: _ => probeLoop env g diff syms tol (trials * 3) trials 0

/-! ### The two public operations -/

/--
`expressions_equivalent` (lines 150-176), the public `compare` operation:
parse both strings; construct the difference form (falling back to structural
comparison if there is none); symbolic zero test, then numeric probing; any
exception (in practice: a parse failure) falls back to comparing the basic
string normalizations of the two original inputs.  The result is `Except`-
valued: `.error` would mean an exception reached the caller.
-/
def expressions_equivalent (env : MathEnv E) (g : ℕ → ℕ) (s1 s2 : String) :
    Except Unit Bool :=
  tryE
    ((parse_to_sympy env s1).bind fun e1 =>
     (parse_to_sympy env s2).bind fun e2 =>
      match difference_form env e1 e2 with
      | none => .ok (structural_equivalence env e1 e2)
      | some diff =>
        if is_zero_symbolically env diff then .ok true
        else .ok (numeric_equivalence env g diff 8 tolQ))
    (fun _ =>
      .ok (decide (basic_string_normalization s1 = basic_string_normalization s2)))

/--
`get_canonical_form` (lines 178-188), the public `normalize_for_storage`
operation: parse, canonicalize, print stably; any exception falls back to the
basic string normalization of the input.
-/
def get_canonical_form (env : MathEnv E) (s : String) : Except Unit String :=
  tryE
    ((parse_to_sympy env s).bind fun e =>
     (canonicalize env e).bind fun c =>
      .ok (to_stable_string env c))
    (fun _ => .ok (basic_string_normalization s))

/--
`normalize_expression` (lines 138-148): textually the same pipeline as
`get_canonical_form` (parse, canonicalize, stable string, with the same
fallback); kept as a separate definition because the source keeps two
separate methods.
-/
def normalize_expression (env : MathEnv E) (s : String) : Except Unit String :=
  tryE
    ((parse_to_sympy env s).bind fun e =>
     (canonicalize env e).bind fun c =>
      .ok (to_stable_string env c))
    (fun _ => .ok (basic_string_normalization s))

/-- Whether a call to `expressions_equivalent` reaches the numeric probing
stage (mirrors the control flow of lines 155-170); when it does not, the
verdict cannot depend on the RNG stream. -/
def numericProbeReached (env : MathEnv E) (s1 s2 : String) : Bool :=
  match parse_to_sympy env s1, parse_to_sympy env s2 with
  | .ok e1, .ok e2 =>
    match difference_form env e1 e2 with
    | none => false
    | some diff => !is_zero_symbolically env diff
  | _, _ => false

/-! ## Concrete oracle instantiations

`AExp` is a small fragment of sympy's expression language, large enough for
the concrete inputs appearing in the theorems below.  Each environment's
fields carry comments stating the sympy behaviour they mirror on the inputs
actually exercised. -/

/-- A fragment of sympy `Basic` values: integers, symbols, arithmetic, and
the two `BooleanAtom`s (which are neither `Expr` nor `Relational`). -/
inductive AExp : Type
  | num (n : ℤ)
  | var (s : String)
  | add (a b : AExp)
  | sub (a b : AExp)
  | mul (a b : AExp)
  | pow (a b : AExp)
  | btrue
  | bfalse
deriving DecidableEq

/-- Exact evaluation of an `AExp` under an integer assignment (mirrors
`expr.subs(...).evalf()` on the integer-valued inputs exercised below; only
natural powers are supported, which covers every use below). -/
def AExp.evalZ : AExp → (String → Option ℤ) → Option ℤ
  | .num n, _ => some n
  | .var s, ρ => ρ s
  | .add a b, ρ => do pure ((← a.evalZ ρ) + (← b.evalZ ρ))
  | .sub a b, ρ => do pure ((← a.evalZ ρ) - (← b.evalZ ρ))
  | .mul a b, ρ => do pure ((← a.evalZ ρ) * (← b.evalZ ρ))
  | .pow a b, ρ => do
    let zb ← b.evalZ ρ
    let za ← a.evalZ ρ
    if 0 ≤ zb then pure (za ^ zb.toNat) else none
  | .btrue, _ => none
  | .bfalse, _ => none

/-- The free symbol names of an `AExp` (mirrors `expr.free_symbols`). -/
def AExp.vars : AExp → List String
  | .num _ => []
  | .var s => [s]
  | .add a b => (a.vars ++ b.vars).dedup
  | .sub a b => (a.vars ++ b.vars).dedup
  | .mul a b => (a.vars ++ b.vars).dedup
  | .pow a b => (a.vars ++ b.vars).dedup
  | .btrue => []
  | .bfalse => []

/-- A string rendering of `AExp` (mirrors sympy's `sstr` exactly on the atoms
`var`, `num`, `btrue`, `bfalse`, which are the only values it is applied to
in the theorems below; composite renderings are schematic). -/
def AExp.printA : AExp → String
  | .num n => toString n
  | .var s => s
  | .btrue => "True"
  | .bfalse => "False"
  | .add a b => "(" ++ a.printA ++ " + " ++ b.printA ++ ")"
  | .sub a b => "(" ++ a.printA ++ " - " ++ b.printA ++ ")"
  | .mul a b => "(" ++ a.printA ++ "*" ++ b.printA ++ ")"
  | .pow a b => "(" ++ a.printA ++ "**" ++ b.printA ++ ")"

/-- Assignment lookup for a sample map. -/
def lookupZ (m : List (String × ℤ)) (s : String) : Option ℤ :=
  match m.find? (fun p => p.1 = s) with
  | some p => some p.2
  | none => none

/-- `sp.Eq(a, b)` on two parsed scalar expressions: sympy keeps an `Eq` node
for structurally distinct sides and evaluates `Eq(e, e)` to `BooleanTrue`;
other argument shapes are not exercised. -/
def mkEqA (a b : MathEngine.Sym AExp) : Except Unit (MathEngine.Sym AExp) :=
  match a, b with
  | .expr x, .expr y => if x = y then .ok (.other .btrue) else .ok (.rel .eq x y)
  | _, _ => .error ()

/-- `expr.func(lhs, rhs)` for a non-`Eq` relational: rebuild the relational
(sympy keeps the node for structurally distinct sides). -/
def mkRelA (k : MathEngine.RelKind) (a b : MathEngine.Sym AExp) :
    Except Unit (MathEngine.Sym AExp) :=
  match a, b with
  | .expr x, .expr y => .ok (.rel k x y)
  | _, _ => .error ()

/--
The main concrete oracle.  It models a deployment in which `latex2sympy2` is
not importable (`LATEX2SYMPY_AVAILABLE = False`, the fallback configuration
the source explicitly supports), `parse_expr` behaves as sympy does on the
handful of concrete strings below, and every simplification pass is the
identity — faithful to sympy on the inputs exercised, where the parsed values
(`x`, `1`, `x**2`, `4` and differences built from them) are already in
simplified form and, in particular, where sympy's own passes also return a
value that is not structurally the integer `0`.
-/
def sEnv : MathEngine.MathEnv AExp where
  latexAvailable := false
  latex2sympy := fun _ => .error ()
  -- `parse_expr` with implicit multiplication and convert_xor on these
  -- strings: "x^2" parses as x**2, "4" as Integer(4), "x" as Symbol('x'),
  -- "1" as Integer(1) (whitespace is ignored by the tokenizer).
  parse_expr := fun s =>
    if s = "x" then .ok (.expr (.var "x"))
    else if s = "1" then .ok (.expr (.num 1))
    else if s = "x^2 " ∨ s = " x^2" then
      .ok (.expr (.pow (.var "x") (.num 2)))
    else if s = " 4" ∨ s = "4 " then .ok (.expr (.num 4))
    else .error ()
  sympify_str := fun _ => .error ()
  mkEq := mkEqA
  mkRel := mkRelA
  sub := AExp.sub
  -- On the already-simplified values above, `sympify`/`simplify`/`together`/
  -- `cancel`/log and power rewriting/`expand_mul`/`factor_terms` and the
  -- term sort all return a value preserving the numeric function and not
  -- structurally equal to Integer(0); the identity is such a value.
  sympify_e := fun e => .ok e
  simplify := fun e => .ok e
  together := fun e => .ok e
  cancel := fun e => .ok e
  expand_log := fun e => .ok e
  logcombine := fun e => .ok e
  powsimp := fun e => .ok e
  powdenest := fun e => .ok e
  expand_mul := fun e => .ok e
  factor_terms := fun e => .ok e
  sort_add_terms := fun e => .ok e
  eq_zero := fun e => e = AExp.num 0   -- structural `e == 0`
  sstr := fun e => .ok e.printA
  raw_str := fun _ => ""
  free_symbols := AExp.vars
  eval_const := fun e =>
    match e.evalZ (fun _ => none) with
    | some z => .ok ⟨.fin (z : ℚ), .fin 0⟩
    | none => .error ()
  eval_at := fun e m =>
    match e.evalZ (lookupZ m) with
    | some z => .ok ⟨.fin (z : ℚ), .fin 0⟩
    | none => .error ()

/-- An oracle in which every parse strategy fails (e.g. unparseable garbage
input such as an unbalanced parenthesis: `latex2sympy`, `parse_expr` and
`sympify` all raise). -/
def envNone : MathEngine.MathEnv AExp :=
  { sEnv with
    parse_expr := fun _ => .error ()
    sympify_str := fun _ => .error () }

/-- An oracle whose numeric evaluation fails at every sample point (a
difference expression undefined everywhere it is probed, e.g. involving a
log of a negative quantity at every integer sample). -/
def envUndef : MathEngine.MathEnv AExp :=
  { sEnv with
    free_symbols := fun _ => ["x"]
    eval_const := fun _ => .error ()
    eval_at := fun _ _ => .error () }

/-- An oracle for the canonicalization pipeline in which `expand_log` raises
(the local `try/except pass` exists in the source precisely because the
forced log rewriting can throw on edge cases) while a later pass (`powsimp`)
rewrites the expression; all other passes are the identity. -/
def cEnv5 : MathEngine.MathEnv AExp :=
  { sEnv with
    expand_log := fun _ => .error ()
    powsimp := fun _ => .ok (.var "y") }

/-- An oracle in which the first pipeline pass (`sp.simplify`) raises, so the
outer `except` of `_canonicalize_expr` fires. -/
def cEnv5w : MathEngine.MathEnv AExp :=
  { sEnv with
    simplify := fun _ => .error () }

/--
The oracle for the idempotence counterexample, mirroring documented sympy
behaviour: `parse_expr("x ")` is `Symbol('x')`, `parse_expr(" 4")` is
`Integer(4)`; and `parse_expr("x == 4")` evaluates the Python comparison
`Symbol('x') == Integer(4)`, which is sympy's *structural* equality, i.e. the
Python bool `False`, which `sympify` turns into the `BooleanAtom`
`S.false` — an object that is neither `Expr` nor `Relational` and prints as
`"False"`.
-/
def cEnv6 : MathEngine.MathEnv AExp :=
  { sEnv with
    parse_expr := fun s =>
      if s = "x " then .ok (.expr (.var "x"))
      else if s = " 4" then .ok (.expr (.num 4))
      else if s = "x == 4" then .ok (.other .bfalse)
      else .error () }

/-- A draw stream whose every `random.choice(domain)` index is `0`, i.e.
every sampled value is `-5`. -/
def gNeg5 : ℕ → ℕ := fun _ => 0

/-- A draw stream whose every `random.choice(domain)` index is `6`, i.e.
every sampled value is `1`. -/
def gOne : ℕ → ℕ := fun _ => 6

/-! ## Predicates for the fallback-normalizer postconditions -/

/-- No digit is immediately followed by an ASCII letter. -/
def noDLB : List Char → Bool
  | a :: b :: r => !(isAsciiDigit a && isAsciiAlpha b) && noDLB (b :: r)
  | _ => true

/-- No ASCII letter is immediately followed by an opening parenthesis. -/
def noLPB : List Char → Bool
  | a :: b :: r => !(isAsciiAlpha a && b = '(') && noLPB (b :: r)
  | _ => true

/-- `m` can be walked through by `replaceList pat rep` without a match
starting inside it, whatever follows: at every start position inside `m`,
the remaining part of `m` neither begins with `pat` nor is a prefix of
`pat`. -/
def CleanFor (pat m : List Char) : Prop :=
  ∀ j, j < m.length → pfxB pat (m.drop j) = false ∧ pfxB (m.drop j) pat = false

instance (pat m : List Char) : Decidable (CleanFor pat m) := by
  unfold CleanFor; infer_instance

/-- `m` can be walked through by `dlScan` unchanged: no internal
digit-letter pair, and its last character is not a digit (so no match can
span into what follows). -/
def dlSafe : List Char → Bool
  | [] => true
  | [a] => !isAsciiDigit a
  | a :: b :: r => !(isAsciiDigit a && isAsciiAlpha b) && dlSafe (b :: r)

/-- `m` can be walked through by `lpScan` unchanged: no internal
letter-parenthesis pair, and its last character is not a letter. -/
def lpSafe : List Char → Bool
  | [] => true
  | [a] => !isAsciiAlpha a
  | a :: b :: r => !(isAsciiAlpha a && b = '(') && lpSafe (b :: r)

/-- Block structure of the intermediate strings of the protection phase of
`_basic_string_normalization`: a concatenation of single non-upper-case
characters and whole protection markers of function names drawn from `L`. -/
inductive MarkedL (L : List (List Char)) : List Char → Prop
  | nil : MarkedL L []
  | chr {c : Char} {cs : List Char} :
      isUpperAscii c = false → MarkedL L cs → MarkedL L (c :: cs)
  | mark {fn : List Char} {cs : List Char} :
      fn ∈ L → MarkedL L cs → MarkedL L (fnMarker fn ++ cs)

end MathEngine

namespace MathEngine

/-! ## Helper lemmas -/

variable {E : Type}

theorem tryE_ok_of {α : Type} (body : Except Unit α) (h : Unit → Except Unit α)
    (x : α) (hx : h () = .ok x) : ∃ a, tryE body h = .ok a := by
  cases body with
  | ok a => exact ⟨a, rfl⟩
  | error e => cases e; exact ⟨x, hx⟩

@[simp] theorem bind_ok {α β : Type} (a : α) (f : α → Except Unit β) :
    (Except.ok a : Except Unit α).bind f = f a := rfl

@[simp] theorem bind_fail {α β : Type} (e : Unit) (f : α → Except Unit β) :
    (Except.error e : Except Unit α).bind f = .error e := rfl

@[simp] theorem tryE_ok {α : Type} (a : α) (h : Unit → Except Unit α) :
    tryE (.ok a) h = .ok a := rfl

@[simp] theorem tryE_fail {α : Type} (e : Unit) (h : Unit → Except Unit α) :
    tryE (.error e) h = h e := rfl

/-- When either parse fails, `expressions_equivalent` is exactly the equality
test on the two basic string normalizations (the `except` handler of lines
171-176). -/
theorem parse_fail_string_fallback (env : MathEnv E) (g : ℕ → ℕ) (s1 s2 : String)
    (h : parse_to_sympy env s1 = .error () ∨ parse_to_sympy env s2 = .error ()) :
    expressions_equivalent env g s1 s2 =
      .ok (decide (basic_string_normalization s1 = basic_string_normalization s2)) := by
  rcases h with h | h
  · simp only [expressions_equivalent, h, bind_fail, tryE_fail]
  · cases hp : parse_to_sympy env s1 with
    | error e =>
      cases e
      simp only [expressions_equivalent, hp, bind_fail, tryE_fail]
    | ok e1 =>
      simp only [expressions_equivalent, hp, bind_ok, h, bind_fail, tryE_fail]

/-- If every sample evaluation fails, the probe loop never accepts. -/
theorem probeLoop_all_fail (env : MathEnv E) (g : ℕ → ℕ) (diff : E)
    (syms : List String) (tol : ℚ)
    (h : ∀ m, env.eval_at diff m = .error ()) :
    ∀ a t i, probeLoop env g diff syms tol a t i = false := by
  intro a
  induction a with
  | zero => intro t i; rfl
  | succ a ih =>
    intro t i
    simp only [probeLoop]
    rw [h]
    exact ih t _

/-! ## The claims -/

/--
C10.  The two normalization entry points `normalize_expression` and
`get_canonical_form` are extensionally equal: both are parse → canonicalize →
stable string with the identical string fallback, so any caller of either
receives the same canonical form (their bodies are literally the same code).
-/
theorem c10_normalize_entry_points_agree (env : MathEnv E) (s : String) :
    normalize_expression env s = get_canonical_form env s := rfl

/--
C1.  For every oracle (hence every pair of input strings, including malformed
ones), the public operations `expressions_equivalent` (compare) and
`get_canonical_form` (normalize_for_storage) return a result and never
propagate an exception: every internal failure is caught by the outermost
`try/except`, whose handler degrades to the pure (total) basic string
normalization.
-/
theorem c1_public_operations_never_raise (env : MathEnv E) (g : ℕ → ℕ)
    (s1 s2 s3 : String) :
    (∃ b, expressions_equivalent env g s1 s2 = .ok b) ∧
    (∃ r, get_canonical_form env s3 = .ok r) := by
  constructor
  · exact tryE_ok_of _ _ _ rfl
  · exact tryE_ok_of _ _ _ rfl

/--
C3.  Whenever parsing of either input fails (the parse error reaches the
outer `except` of `expressions_equivalent`), compare returns `true` exactly
when the two basic string normalizations of the original inputs are equal as
strings.
-/
theorem c3_parse_failure_falls_back_to_string_equality (env : MathEnv E)
    (g : ℕ → ℕ) (s1 s2 : String)
    (h : parse_to_sympy env s1 = .error () ∨ parse_to_sympy env s2 = .error ()) :
    expressions_equivalent env g s1 s2 =
      .ok (decide (basic_string_normalization s1 = basic_string_normalization s2)) :=
  parse_fail_string_fallback env g s1 s2 h

/-- Witness for C3 at a concrete unparseable input: `"("` fails every parse
strategy of `envNone`, and comparing `"("` with `""` yields exactly the
(here: false) string-normalization equality. -/
theorem c3_witness :
    parse_to_sympy envNone "(" = .error () ∧
    expressions_equivalent envNone gNeg5 "(" "" = .ok false ∧
    basic_string_normalization "(" ≠ basic_string_normalization "" := by
  refine ⟨by decide, ?_, by decide⟩
  rw [c3_parse_failure_falls_back_to_string_equality envNone gNeg5 "(" ""
    (Or.inl (by decide))]
  decide

/--
C2 (code bug).  At the failing input pair `("x^2 = 4", "4 = x^2")` the engine
parses the two equations, forms the Eq-vs-Eq difference
`(lhs1 - rhs1) - (lhs2 - rhs2) = (x² - 4) - (4 - x²)` — which is `2x² - 8`,
not identically zero — so the symbolic zero test fails and the numeric probe
rejects at its first sample off the roots `±2` (here `x = -5`): compare
returns `false`, contradicting the spec's scenario that swapping the two
sides of an equation is accepted.
-/
theorem c2_swapped_equation_rejected :
    parse_to_sympy sEnv "x^2 = 4" =
      .ok (.rel .eq (.pow (.var "x") (.num 2)) (.num 4)) ∧
    parse_to_sympy sEnv "4 = x^2" =
      .ok (.rel .eq (.num 4) (.pow (.var "x") (.num 2))) ∧
    difference_form sEnv (.rel .eq (.pow (.var "x") (.num 2)) (.num 4))
        (.rel .eq (.num 4) (.pow (.var "x") (.num 2))) =
      some (.sub (.sub (.pow (.var "x") (.num 2)) (.num 4))
                 (.sub (.num 4) (.pow (.var "x") (.num 2)))) ∧
    expressions_equivalent sEnv gNeg5 "x^2 = 4" "4 = x^2" = .ok false := by
  refine ⟨by decide, by decide, by decide, by decide⟩

/--
C5 counterexample.  A pass of the canonicalization pipeline (`expand_log`)
raises, yet the canonicalizer does not return the unsimplified input: the
log-stage failure is caught by the inner `try/except pass` and the pipeline
continues (here `powsimp` rewrites `x` to `y`), so the claim "if any pass
raises, the unsimplified input is returned" is false as stated.
-/
theorem c5_counterexample :
    cEnv5.expand_log (AExp.var "x") = .error () ∧
    canonicalize_expr cEnv5 (AExp.var "x") = AExp.var "y" ∧
    AExp.var "y" ≠ AExp.var "x" := by
  refine ⟨rfl, by decide, by decide⟩

/--
C5 (amended).  If the canonicalization pipeline fails anywhere outside the
log-rewriting stage (i.e. the `try`-body as a whole fails), `_canonicalize_expr`
catches the exception and returns the unsimplified input; failures inside the
log stage are caught locally and the pipeline continues from the last
successfully assigned value; in either case canonicalization never raises to
its caller (it is a total function).
-/
theorem c5_pipeline_failure_returns_input (env : MathEnv E) (x : E)
    (h : canonicalize_exprT env x = .error ()) :
    canonicalize_expr env x = x := by
  unfold canonicalize_expr
  rw [h]

/-- Witness for the amended C5: with `sp.simplify` raising, the pipeline body
fails and the input comes back unchanged. -/
theorem c5_witness :
    canonicalize_exprT cEnv5w (AExp.var "x") = .error () ∧
    canonicalize_expr cEnv5w (AExp.var "x") = AExp.var "x" :=
  ⟨by decide, c5_pipeline_failure_returns_input cEnv5w (AExp.var "x") (by decide)⟩

/--
C6 counterexample.  The input `"x = 4"` parses to `Eq(x, 4)`, whose canonical
form is a fixed point of the simplification pipeline, and stores as
`"x == 4"`.  But re-normalizing the stored string does not reproduce it:
`"x == 4"` is not split at `=` (it contains `==`), `parse_expr` evaluates the
structural comparison to the boolean `False`, and storage yields `"False"`.
So `normalize_for_storage` is not idempotent for `"x = 4"` even though its
canonical form is a pipeline fixed point.
-/
theorem c6_counterexample :
    canonicalize cEnv6 (.rel .eq (.var "x") (.num 4)) =
      .ok (.rel .eq (.var "x") (.num 4)) ∧
    get_canonical_form cEnv6 "x = 4" = .ok "x == 4" ∧
    get_canonical_form cEnv6 "x == 4" = .ok "False" := by
  refine ⟨by decide, by decide, by decide⟩

/--
C6 (amended).  Idempotence of `normalize_for_storage` holds when, in addition
to the canonical form `c` being a fixed point of the simplification pipeline,
re-parsing the stored stable string yields `c` back (printer/parser
round-trip): then normalizing the stored string reproduces it exactly.
-/
theorem c6_idempotent_with_roundtrip (env : MathEnv E) (s : String)
    (e c : Sym E)
    (hp : parse_to_sympy env s = .ok e)
    (hc : canonicalize env e = .ok c)
    (hrt : parse_to_sympy env (to_stable_string env c) = .ok c)
    (hfix : canonicalize env c = .ok c) :
    get_canonical_form env s = .ok (to_stable_string env c) ∧
    get_canonical_form env (to_stable_string env c) =
      .ok (to_stable_string env c) := by
  constructor
  · simp only [get_canonical_form, hp, bind_ok, hc, tryE_ok]
  · simp only [get_canonical_form, hrt, bind_ok, hfix, tryE_ok]

/-- Witness for the amended C6: for `"x"` under `sEnv`, the canonical form
round-trips and normalization is idempotent. -/
theorem c6_witness :
    get_canonical_form sEnv "x" = .ok "x" ∧
    get_canonical_form sEnv (to_stable_string sEnv (.expr (.var "x"))) = .ok "x" := by
  have h := c6_idempotent_with_roundtrip sEnv "x" (.expr (.var "x")) (.expr (.var "x"))
    (by decide) (by decide) (by decide) (by decide)
  exact ⟨by rw [h.1]; decide, by rw [h.2]; decide⟩

/--
C7 counterexample.  Symmetry of compare fails as a two-call property: the
two calls consume different draws from the process-global RNG, and for the
pair `("x", "1")` the difference `x - 1` vanishes at the sample `1` but not
at `-5`, so a call whose eight successful samples all draw `1` accepts while
the swapped call drawing `-5` rejects.
-/
theorem c7_counterexample :
    expressions_equivalent sEnv gOne "x" "1" = .ok true ∧
    expressions_equivalent sEnv gNeg5 "1" "x" = .ok false := by
  refine ⟨by decide, by decide⟩

/--
C7 (amended).  Symmetry holds unconditionally on the string-fallback path:
whenever either input fails to parse, `compare(E1, E2) = compare(E2, E1)`
for any RNG states of the two calls.  When both inputs parse, symmetry holds
only up to the RNG draws consumed by numeric probing (and the symmetry of the
underlying simplifier), and is not guaranteed by the code.
-/
theorem c7_symmetric_on_parse_failure (env : MathEnv E) (g g2 : ℕ → ℕ)
    (s1 s2 : String)
    (h : parse_to_sympy env s1 = .error () ∨ parse_to_sympy env s2 = .error ()) :
    expressions_equivalent env g s1 s2 = expressions_equivalent env g2 s2 s1 := by
  rw [parse_fail_string_fallback env g s1 s2 h,
      parse_fail_string_fallback env g2 s2 s1 h.symm]
  exact congrArg Except.ok (by rw [decide_eq_decide]; exact eq_comm)

/-- Witness for the amended C7: both orders of the unparseable pair
`("(", "")` give the same verdict. -/
theorem c7_witness :
    parse_to_sympy envNone "(" = .error () ∧
    expressions_equivalent envNone gNeg5 "(" "" =
      expressions_equivalent envNone gOne "" "(" :=
  ⟨by decide,
   c7_symmetric_on_parse_failure envNone gNeg5 gOne "(" "" (Or.inl (by decide))⟩

/--
C8 counterexample.  Compare is not a function of its two input strings alone:
the verdict can depend on the process-global RNG consumed by numeric probing.
For `("x", "1")` the difference `x - 1` is not symbolically zero, and the
probe accepts under a draw stream sampling only `1` while rejecting under a
stream sampling `-5` — two calls with identical inputs returning different
booleans.
-/
theorem c8_counterexample :
    expressions_equivalent sEnv gOne "x" "1" = .ok true ∧
    expressions_equivalent sEnv gNeg5 "x" "1" = .ok false := by
  refine ⟨by decide, by decide⟩

/--
C8 (amended).  Compare is a deterministic function of its two input strings
*and the RNG draw sequence*; the only shared state it reads is the global
RNG.  In particular, whenever the verdict is settled without reaching
numeric probing (parse failure, no difference form, or a symbolically zero
difference), the result is independent of the RNG stream.
-/
theorem c8_deterministic_when_probe_unreached (env : MathEnv E)
    (s1 s2 : String) (g g2 : ℕ → ℕ)
    (h : numericProbeReached env s1 s2 = false) :
    expressions_equivalent env g s1 s2 = expressions_equivalent env g2 s1 s2 := by
  cases h1 : parse_to_sympy env s1 with
  | error e =>
    cases e
    simp only [expressions_equivalent, h1, bind_fail, tryE_fail]
  | ok e1 =>
    cases h2 : parse_to_sympy env s2 with
    | error e =>
      cases e
      simp only [expressions_equivalent, h1, h2, bind_ok, bind_fail, tryE_fail]
    | ok e2 =>
      cases hd : difference_form env e1 e2 with
      | none =>
        simp only [expressions_equivalent, h1, h2, bind_ok, hd, tryE_ok]
      | some diff =>
        simp only [numericProbeReached, h1, h2, hd, Bool.not_eq_false'] at h
        simp only [expressions_equivalent, h1, h2, bind_ok, hd, h, if_true, tryE_ok]

/-- Witness for the amended C8: a parse failure settles the verdict without
probing, and the result is the same under two different streams. -/
theorem c8_witness :
    numericProbeReached envNone "(" "" = false ∧
    expressions_equivalent envNone gNeg5 "(" "" =
      expressions_equivalent envNone gOne "(" "" :=
  ⟨by decide,
   c8_deterministic_when_probe_unreached envNone "(" "" gNeg5 gOne (by decide)⟩

/--
C4.  The numeric probe: (i) if evaluation of the difference fails at every
sample map (and as a constant), the probe conservatively returns `false` —
a fully undefined difference is never reported equivalent; (ii) an attempt
whose sample evaluates successfully to a finite value of magnitude above the
tolerance makes the probe return `false` immediately; (iii) the probe returns
`true` only if at least the required number `t` of attempts (within the fixed
budget `trials * 3 = 24` for the default `trials = 8`) evaluated successfully
to finite values.
-/
theorem c4_numeric_probe (env : MathEnv E) (g : ℕ → ℕ) (diff : E) (tol : ℚ) :
    (∀ trials, (∀ m, env.eval_at diff m = .error ()) →
       env.eval_const diff = .error () →
       numeric_equivalence env g diff trials tol = false) ∧
    (∀ syms a t i v, env.eval_at diff (drawMap g syms i).1 = .ok v →
       v.isNanOrInf = false → absGtTolSq v tol = true →
       probeLoop env g diff syms tol (a + 1) t i = false) ∧
    (∀ syms a t i, probeLoop env g diff syms tol a t i = true →
       t ≤ countSuccesses env g diff syms a i) := by
  refine ⟨?_, ?_, ?_⟩
  · intro trials hAll hConst
    unfold numeric_equivalence
    cases hs : sortStrs (env.free_symbols diff) with
    | nil => rw [hConst]
    | cons a l => exact probeLoop_all_fail env g diff _ tol hAll _ _ _
  · intro syms a t i v hv hfin habs
    simp only [probeLoop]
    rw [hv]
    dsimp only
    simp [hfin, habs]
  · intro syms a
    induction a with
    | zero =>
      intro t i h
      simp [probeLoop] at h
    | succ a ih =>
      intro t i h
      simp only [probeLoop] at h
      simp only [countSuccesses]
      cases he : env.eval_at diff (drawMap g syms i).1 with
      | error e =>
        rw [he] at h
        dsimp only at h ⊢
        exact ih t _ h
      | ok v =>
        rw [he] at h
        dsimp only at h ⊢
        by_cases h1 : v.isNanOrInf = true
        · simp only [h1, if_true] at h ⊢
          exact ih t _ h
        · rw [Bool.not_eq_true] at h1
          simp only [h1, Bool.false_eq_true, if_false] at h ⊢
          by_cases h2 : absGtTolSq v tol = true
          · simp only [h2, if_true] at h
            exact absurd h (by simp)
          · rw [Bool.not_eq_true] at h2
            simp only [h2, Bool.false_eq_true, if_false] at h
            by_cases h3 : t - 1 = 0
            · have := Nat.zero_le (countSuccesses env g diff syms a (drawMap g syms i).2)
              omega
            · simp only [h3, if_false] at h
              have := ih (t - 1) _ h
              omega

/-- Witness for C4 at concrete inputs: an everywhere-undefined difference is
rejected; a first sample evaluating to `-6` rejects immediately; and a run
that accepts (all samples `1` on `x - 1`) indeed had at least 8 successful
evaluations. -/
theorem c4_witness :
    numeric_equivalence envUndef gNeg5 (AExp.var "x") 8 tolQ = false ∧
    probeLoop sEnv gNeg5 (AExp.sub (AExp.var "x") (AExp.num 1)) ["x"] tolQ 24 8 0 = false ∧
    8 ≤ countSuccesses sEnv gOne (AExp.sub (AExp.var "x") (AExp.num 1)) ["x"] 24 0 := by
  refine ⟨?_, ?_, ?_⟩
  · exact (c4_numeric_probe envUndef gNeg5 (AExp.var "x") tolQ).1 8
      (fun m => rfl) rfl
  · exact (c4_numeric_probe sEnv gNeg5 (AExp.sub (AExp.var "x") (AExp.num 1)) tolQ).2.1
      ["x"] 23 8 0 ⟨.fin (-6 : ℚ), .fin 0⟩ (by decide) (by decide) (by decide)
  · exact (c4_numeric_probe sEnv gOne (AExp.sub (AExp.var "x") (AExp.num 1)) tolQ).2.2
      ["x"] 24 8 0 (by decide)

/-! ## String-pipeline lemmas (towards C9) -/

theorem pfxB_eq_append {p l : List Char} (h : pfxB p l = true) :
    l = p ++ l.drop p.length := by
  induction p generalizing l with
  | nil => simp
  | cons a p ih =>
    cases l with
    | nil => simp [pfxB] at h
    | cons b l' =>
      simp only [pfxB, Bool.and_eq_true, decide_eq_true_eq] at h
      obtain ⟨rfl, h2⟩ := h
      simpa using ih h2

theorem pfxB_append_self (p t : List Char) : pfxB p (p ++ t) = true := by
  induction p with
  | nil => rfl
  | cons a p ih => simp [pfxB, ih]

theorem pfxB_append_cases {a b r : List Char} (h : pfxB a (b ++ r) = true) :
    pfxB a b = true ∨ pfxB b a = true := by
  induction a generalizing b with
  | nil => exact Or.inl rfl
  | cons x a ih =>
    cases b with
    | nil => exact Or.inr rfl
    | cons y b' =>
      simp only [List.cons_append, pfxB, Bool.and_eq_true, decide_eq_true_eq] at h
      obtain ⟨rfl, h2⟩ := h
      rcases ih h2 with h3 | h3
      · exact Or.inl (by simp [pfxB, h3])
      · exact Or.inr (by simp [pfxB, h3])

theorem replaceListF_congr (pat rep : List Char) :
    ∀ f1 f2 cs, cs.length ≤ f1 → cs.length ≤ f2 →
      replaceListF pat rep f1 cs = replaceListF pat rep f2 cs := by
  intro f1
  induction f1 with
  | zero =>
    intro f2 cs h1 _
    rw [List.length_eq_zero.mp (Nat.le_zero.mp h1)]
    cases f2 <;> rfl
  | succ f1 ih =>
    intro f2 cs h1 h2
    cases cs with
    | nil => cases f2 <;> rfl
    | cons c cs' =>
      cases f2 with
      | zero => simp at h2
      | succ f2 =>
        simp only [replaceListF]
        by_cases hc : pat ≠ [] ∧ pfxB pat (c :: cs') = true
        · simp only [if_pos hc]
          have hlen : (List.drop pat.length (c :: cs')).length ≤ f1 := by
            have : 0 < pat.length := List.length_pos.mpr hc.1
            simp only [List.length_drop, List.length_cons]
            simp only [List.length_cons] at h1
            omega
          have hlen2 : (List.drop pat.length (c :: cs')).length ≤ f2 := by
            have : 0 < pat.length := List.length_pos.mpr hc.1
            simp only [List.length_drop, List.length_cons]
            simp only [List.length_cons] at h2
            omega
          rw [ih f2 _ hlen hlen2]
        · simp only [if_neg hc]
          simp only [List.length_cons] at h1 h2
          rw [ih f2 cs' (by omega) (by omega)]

/-- The one-step unfolding of `replaceList`. -/
theorem replaceList_cons (pat rep : List Char) (c : Char) (cs : List Char) :
    replaceList pat rep (c :: cs) =
      if pat ≠ [] ∧ pfxB pat (c :: cs) = true then
        rep ++ replaceList pat rep (List.drop pat.length (c :: cs))
      else c :: replaceList pat rep cs := by
  show replaceListF pat rep (cs.length + 1) (c :: cs) = _
  simp only [replaceListF]
  by_cases hc : pat ≠ [] ∧ pfxB pat (c :: cs) = true
  · simp only [if_pos hc]
    have : 0 < pat.length := List.length_pos.mpr hc.1
    rw [replaceListF_congr pat rep cs.length (List.drop pat.length (c :: cs)).length _
      (by simp only [List.length_drop, List.length_cons]; omega) le_rfl]
    rfl
  · simp only [if_neg hc]
    rfl

@[simp] theorem replaceList_nil (pat rep : List Char) :
    replaceList pat rep [] = [] := rfl

/-- Walking lemma: if no occurrence of `pat` can start inside `m`, the
replacement passes `m` through unchanged and continues behind it. -/
theorem replaceList_walk (pat rep : List Char) :
    ∀ m rest, CleanFor pat m →
      replaceList pat rep (m ++ rest) = m ++ replaceList pat rep rest := by
  intro m
  induction m with
  | nil => intro rest _; rfl
  | cons c m' ih =>
    intro rest hm
    rw [List.cons_append, replaceList_cons]
    have hnot : ¬ (pat ≠ [] ∧ pfxB pat (c :: (m' ++ rest)) = true) := by
      rintro ⟨hne, hpfx⟩
      have h0 := hm 0 (by simp)
      rcases pfxB_append_cases (a := pat) (b := c :: m') (r := rest) hpfx with h | h
      · rw [List.drop_zero] at h0; rw [h0.1] at h; exact Bool.noConfusion h
      · rw [List.drop_zero] at h0; rw [h0.2] at h; exact Bool.noConfusion h
    rw [if_neg hnot]
    rw [ih rest fun j hj => by
      have := hm (j + 1) (by simpa using Nat.succ_lt_succ hj)
      simpa using this]
    simp

/-- If `pat` has no occurrence in `cs`, replacement is the identity. -/
theorem replaceList_no_match (pat rep : List Char) :
    ∀ cs, hasMatch pat cs = false → replaceList pat rep cs = cs := by
  intro cs
  induction cs with
  | nil => intro _; rfl
  | cons c cs' ih =>
    intro h
    simp only [hasMatch, Bool.or_eq_false_iff] at h
    rw [replaceList_cons, if_neg (by rintro ⟨_, hp⟩; rw [h.1] at hp; exact Bool.noConfusion hp)]
    rw [ih h.2]

/-- Character-predicate preservation through `replaceList`. -/
theorem replaceList_all (pat rep : List Char) {P : Char → Bool}
    (hrep : ∀ c ∈ rep, P c = true) :
    ∀ n cs, cs.length ≤ n → (∀ c ∈ cs, P c = true) →
      ∀ c ∈ replaceList pat rep cs, P c = true := by
  intro n
  induction n with
  | zero =>
    intro cs h1 _
    rw [List.length_eq_zero.mp (Nat.le_zero.mp h1)]
    intro c hc; cases hc
  | succ n ih =>
    intro cs hlen hcs
    cases cs with
    | nil => intro c hc; cases hc
    | cons c cs' =>
      rw [replaceList_cons]
      by_cases hc : pat ≠ [] ∧ pfxB pat (c :: cs') = true
      · rw [if_pos hc]
        intro x hx
        rcases List.mem_append.mp hx with hx | hx
        · exact hrep x hx
        · refine ih _ ?_ ?_ x hx
          · have : 0 < pat.length := List.length_pos.mpr hc.1
            simp only [List.length_drop, List.length_cons]
            simp only [List.length_cons] at hlen
            omega
          · intro y hy
            exact hcs y (List.mem_of_mem_drop hy)
      · rw [if_neg hc]
        intro x hx
        rcases List.mem_cons.mp hx with rfl | hx
        · exact hcs x (List.mem_cons_self _ _)
        · refine ih _ ?_ ?_ x hx
          · simp only [List.length_cons] at hlen; omega
          · intro y hy; exact hcs y (List.mem_cons_of_mem _ hy)

/-- After replacing the single character `x` by an `x`-free replacement, `x`
is gone. -/
theorem replaceList_single_gone (x : Char) (rep : List Char) (hrep : x ∉ rep) :
    ∀ cs, x ∉ replaceList [x] rep cs := by
  intro cs
  induction cs with
  | nil => simp
  | cons c cs' ih =>
    rw [replaceList_cons]
    by_cases hc : ([x] : List Char) ≠ [] ∧ pfxB [x] (c :: cs') = true
    · rw [if_pos hc]
      intro hmem
      rcases List.mem_append.mp hmem with h | h
      · exact hrep h
      · exact ih (by simpa using h)
    · rw [if_neg hc]
      intro hmem
      rcases List.mem_cons.mp hmem with rfl | h
      · exact hc ⟨by simp, by simp [pfxB]⟩
      · exact ih h

/-- Every character of a matched pattern occurs in the string. -/
theorem mem_of_hasMatch (pat : List Char) :
    ∀ cs, hasMatch pat cs = true → ∀ x ∈ pat, x ∈ cs := by
  intro cs
  induction cs with
  | nil => intro h; cases h
  | cons c cs' ih =>
    intro h x hx
    simp only [hasMatch, Bool.or_eq_true] at h
    rcases h with h | h
    · rw [pfxB_eq_append h]
      exact List.mem_append.mpr (Or.inl hx)
    · exact List.mem_cons_of_mem _ (ih h x hx)

/-- Replacing a head occurrence. -/
theorem replaceList_head_match (pat rep : List Char) (cs : List Char)
    (hne : pat ≠ []) :
    replaceList pat rep (pat ++ cs) = rep ++ replaceList pat rep cs := by
  cases pat with
  | nil => exact absurd rfl hne
  | cons p0 pt =>
    rw [List.cons_append, replaceList_cons,
      if_pos ⟨hne, by rw [← List.cons_append]; exact pfxB_append_self _ _⟩,
      ← List.cons_append, List.drop_left]

/-! ## The marker block structure -/

theorem MarkedL.head_cases {L : List (List Char)} {cs : List Char}
    (h : MarkedL L cs) :
    cs = [] ∨
    (∃ c cs', cs = c :: cs' ∧ isUpperAscii c = false ∧ MarkedL L cs') ∨
    (∃ fn cs', fn ∈ L ∧ cs = fnMarker fn ++ cs' ∧ MarkedL L cs') := by
  cases h with
  | nil => exact Or.inl rfl
  | chr hc h' => exact Or.inr (Or.inl ⟨_, _, rfl, hc, h'⟩)
  | mark hm h' => exact Or.inr (Or.inr ⟨_, _, hm, rfl, h'⟩)

theorem MarkedL.of_noUpper {L : List (List Char)} :
    ∀ cs, (∀ c ∈ cs, isUpperAscii c = false) → MarkedL L cs := by
  intro cs
  induction cs with
  | nil => intro _; exact MarkedL.nil
  | cons c cs' ih =>
    intro h
    exact MarkedL.chr (h c (List.mem_cons_self _ _))
      (ih fun x hx => h x (List.mem_cons_of_mem _ hx))

theorem MarkedL.append_chrs {L : List (List Char)} {cs : List Char}
    (h : MarkedL L cs) :
    ∀ p, (∀ c ∈ p, isUpperAscii c = false) → MarkedL L (p ++ cs) := by
  intro p
  induction p with
  | nil => intro _; exact h
  | cons c p' ih =>
    intro hp
    exact MarkedL.chr (hp c (List.mem_cons_self _ _))
      (ih fun x hx => hp x (List.mem_cons_of_mem _ hx))

/-- No string of the marker grammar starts with `_F` (the interior of a
marker cannot be re-entered from outside). -/
theorem not_marked_uf {L : List (List Char)} (t : List Char) :
    ¬ MarkedL L ('_' :: 'F' :: t) := by
  intro h
  rcases h.head_cases with h0 | ⟨c, cs', heq, _, h'⟩ | ⟨fn, cs', _, heq, _⟩
  · cases h0
  · obtain ⟨h1, h2⟩ := List.cons.inj heq
    subst h1; subst h2
    rcases h'.head_cases with h0 | ⟨d, ds, heq2, hd, _⟩ | ⟨fn1, cs2, _, heq2, _⟩
    · cases h0
    · obtain ⟨h1, _⟩ := List.cons.inj heq2
      subst h1
      exact absurd hd (by decide)
    · simp [fnMarker] at heq2
  · simp [fnMarker] at heq

/-- Dropping a prefix of non-upper, non-underscore characters preserves the
marker grammar (such a prefix cannot reach into a marker). -/
theorem MarkedL.drop_pfx {L : List (List Char)} :
    ∀ p cs, MarkedL L cs → pfxB p cs = true →
      (∀ c ∈ p, isUpperAscii c = false ∧ c ≠ '_') →
      MarkedL L (cs.drop p.length) := by
  intro p
  induction p with
  | nil => intro cs h _ _; simpa using h
  | cons a p' ih =>
    intro cs h hp hchars
    cases cs with
    | nil => cases hp
    | cons b cs' =>
      simp only [pfxB, Bool.and_eq_true, decide_eq_true_eq] at hp
      obtain ⟨rfl, hp'⟩ := hp
      rcases h.head_cases with h0 | ⟨c, cs2, heq, _, h'⟩ | ⟨fn, cs2, _, heq, _⟩
      · cases h0
      · obtain ⟨h1, h2⟩ := List.cons.inj heq
        subst h1; subst h2
        simpa using ih cs' h' hp' fun x hx => hchars x (List.mem_cons_of_mem _ hx)
      · exfalso
        rw [fnMarker, List.cons_append] at heq
        exact (hchars a (List.mem_cons_self _ _)).2 (List.cons.inj heq).1

/-! ## Concrete facts about the protected function names -/

theorem fnPat_chars_ok :
    ∀ fn ∈ fnNames, ∀ c ∈ fnPat fn, isUpperAscii c = false ∧ c ≠ '_' := by decide

theorem fnPat_ne_nil : ∀ (fn : List Char), fnPat fn ≠ [] := by
  intro fn h
  have := congrArg List.length h
  simp [fnPat] at this

theorem fnMarker_ne_nil : ∀ (fn : List Char), fnMarker fn ≠ [] := by
  intro fn h
  simpa [fnMarker] using congrArg List.length h

theorem markers_clean_mutual :
    ∀ fn ∈ fnNames, ∀ fn1 ∈ fnNames,
      fn = fn1 ∨ CleanFor (fnMarker fn) (fnMarker fn1) := by decide

theorem pats_clean_markers :
    ∀ fn ∈ fnNames, ∀ fn1 ∈ fnNames, CleanFor (fnPat fn) (fnMarker fn1) := by decide

theorem markers_scan_safe :
    ∀ fn ∈ fnNames, dlSafe (fnMarker fn) = true ∧ lpSafe (fnMarker fn) = true := by
  decide

theorem markers_chars_ok :
    ∀ fn ∈ fnNames, ∀ c ∈ fnMarker fn,
      pySpace c = false ∧ c ≠ '$' ∧ c ≠ '^' := by decide

theorem fnPat_chars_ok2 :
    ∀ fn ∈ fnNames, ∀ c ∈ fnPat fn,
      pySpace c = false ∧ c ≠ '$' ∧ c ≠ '^' := by decide

/-! ## The protection and restoration loops preserve the marker grammar -/

/-- One protection step `s.replace(f"{fn}(", f"__FN__{fn}__(")` sends a
grammar string to a grammar string: function applications in character runs
become markers; existing markers are walked through untouched. -/
theorem prot_one (fn : List Char) (hfn : fn ∈ fnNames) :
    ∀ n cs, cs.length ≤ n → MarkedL fnNames cs →
      MarkedL fnNames (replaceList (fnPat fn) (fnMarker fn) cs) := by
  intro n
  induction n with
  | zero =>
    intro cs h1 _
    rw [List.length_eq_zero.mp (Nat.le_zero.mp h1)]
    exact MarkedL.nil
  | succ n ih =>
    intro cs hlen h
    rcases h.head_cases with rfl | ⟨c, cs', rfl, hc, h'⟩ | ⟨fn1, cs', hfn1, rfl, h'⟩
    · exact MarkedL.nil
    · rw [replaceList_cons]
      by_cases hm : fnPat fn ≠ [] ∧ pfxB (fnPat fn) (c :: cs') = true
      · rw [if_pos hm]
        have hdrop : MarkedL fnNames ((c :: cs').drop (fnPat fn).length) :=
          MarkedL.drop_pfx (fnPat fn) (c :: cs') (MarkedL.chr hc h') hm.2
            (fnPat_chars_ok fn hfn)
        refine MarkedL.mark hfn (ih _ ?_ hdrop)
        have hp : 0 < (fnPat fn).length := List.length_pos.mpr hm.1
        simp only [List.length_drop, List.length_cons]
        simp only [List.length_cons] at hlen
        omega
      · rw [if_neg hm]
        refine MarkedL.chr hc (ih _ ?_ h')
        simp only [List.length_cons] at hlen
        omega
    · rw [replaceList_walk (fnPat fn) (fnMarker fn) (fnMarker fn1) cs'
        (pats_clean_markers fn hfn fn1 hfn1)]
      refine MarkedL.mark hfn1 (ih _ ?_ h')
      rw [List.length_append] at hlen
      have hm1 : 0 < (fnMarker fn1).length := List.length_pos.mpr (fnMarker_ne_nil fn1)
      omega

/-- One restoration step `s.replace(f"__FN__{fn}__(", f"{fn}(")` removes
exactly the `fn`-markers from a grammar string (no occurrence of the marker
pattern can start anywhere except at an `fn`-marker block). -/
theorem unprot_one (fn : List Char) (hfn : fn ∈ fnNames) :
    ∀ n cs K, cs.length ≤ n → (∀ x ∈ K, x ∈ fnNames) → MarkedL K cs →
      MarkedL (K.filter (fun x => x ≠ fn))
        (replaceList (fnMarker fn) (fnPat fn) cs) := by
  intro n
  induction n with
  | zero =>
    intro cs K h1 _ _
    rw [List.length_eq_zero.mp (Nat.le_zero.mp h1)]
    exact MarkedL.nil
  | succ n ih =>
    intro cs K hlen hK h
    rcases h.head_cases with rfl | ⟨c, cs', rfl, hc, h'⟩ | ⟨fn1, cs', hfn1, rfl, h'⟩
    · exact MarkedL.nil
    · rw [replaceList_cons]
      have hneg : ¬ (fnMarker fn ≠ [] ∧ pfxB (fnMarker fn) (c :: cs') = true) := by
        rintro ⟨_, hpfx⟩
        have happ := pfxB_eq_append hpfx
        rw [fnMarker] at happ
        simp only [List.cons_append] at happ
        obtain ⟨-, h2⟩ := List.cons.inj happ
        exact not_marked_uf _ (h2 ▸ h')
      rw [if_neg hneg]
      refine MarkedL.chr hc (ih _ _ ?_ hK h')
      simp only [List.length_cons] at hlen
      omega
    · by_cases heq : fn1 = fn
      · subst heq
        rw [replaceList_head_match _ _ _ (fnMarker_ne_nil fn1)]
        refine MarkedL.append_chrs ?_ (fnPat fn1)
          (fun c hc => (fnPat_chars_ok fn1 hfn c hc).1)
        refine ih _ _ ?_ hK h'
        rw [List.length_append] at hlen
        have hm1 : 0 < (fnMarker fn1).length := List.length_pos.mpr (fnMarker_ne_nil fn1)
        omega
      · rcases markers_clean_mutual fn hfn fn1 (hK fn1 hfn1) with hq | hclean
        · exact absurd hq.symm heq
        · rw [replaceList_walk (fnMarker fn) (fnPat fn) (fnMarker fn1) cs' hclean]
          refine MarkedL.mark (List.mem_filter.mpr ⟨hfn1, by simpa using heq⟩)
            (ih _ _ ?_ hK h')
          rw [List.length_append] at hlen
          have hm1 : 0 < (fnMarker fn1).length := List.length_pos.mpr (fnMarker_ne_nil fn1)
          omega

/-- A grammar string over an empty marker alphabet has no upper-case
characters. -/
theorem MarkedL.noUpper_of_no_fns {K : List (List Char)} {cs : List Char}
    (hK : ∀ x ∈ K, (False : Prop)) (h : MarkedL K cs) :
    ∀ c ∈ cs, isUpperAscii c = false := by
  induction h with
  | nil => intro c hc; cases hc
  | chr hc _ ih =>
    intro x hx
    rcases List.mem_cons.mp hx with rfl | hx
    · exact hc
    · exact ih x hx
  | mark hm _ _ => exact (hK _ hm).elim

/-- The whole protection loop preserves the marker grammar. -/
theorem protect_fold :
    ∀ (l : List (List Char)), (∀ x ∈ l, x ∈ fnNames) → ∀ cs, MarkedL fnNames cs →
      MarkedL fnNames
        (l.foldl (fun s fn => replaceList (fnPat fn) (fnMarker fn) s) cs) := by
  intro l
  induction l with
  | nil => intro _ cs h; exact h
  | cons fn l' ih =>
    intro hl cs h
    simp only [List.foldl_cons]
    exact ih (fun x hx => hl x (List.mem_cons_of_mem _ hx)) _
      (prot_one fn (hl fn (List.mem_cons_self _ _)) cs.length cs le_rfl h)

/-- The whole restoration loop eliminates every marker whose name it still
has to process, leaving an upper-case-free string. -/
theorem unprot_fold :
    ∀ (l : List (List Char)) (K : List (List Char)) cs,
      (∀ x ∈ K, x ∈ fnNames) → (∀ x ∈ l, x ∈ fnNames) → (∀ x ∈ K, x ∈ l) →
      MarkedL K cs →
      ∀ c ∈ l.foldl (fun s fn => replaceList (fnMarker fn) (fnPat fn) s) cs,
        isUpperAscii c = false := by
  intro l
  induction l with
  | nil =>
    intro K cs _ _ hKl h
    simp only [List.foldl_nil]
    exact h.noUpper_of_no_fns fun x hx => by cases hKl x hx
  | cons fn l' ih =>
    intro K cs hK hl hKl h
    simp only [List.foldl_cons]
    refine ih (K.filter (fun x => x ≠ fn)) _ ?_ ?_ ?_
      (unprot_one fn (hl fn (List.mem_cons_self _ _)) cs.length cs K le_rfl hK h)
    · intro x hx
      exact hK x (List.mem_filter.mp hx).1
    · intro x hx
      exact hl x (List.mem_cons_of_mem _ hx)
    · intro x hx
      obtain ⟨hx1, hx2⟩ := List.mem_filter.mp hx
      rcases List.mem_cons.mp (hKl x hx1) with rfl | h2
      · simp at hx2
      · exact h2

/-! ## The two insertion scanners -/

theorem dlScan_cons_of (c : Char) (rest : List Char)
    (h : ∀ d t, rest = d :: t → (isAsciiDigit c && isAsciiAlpha d) = false) :
    dlScan (c :: rest) = c :: dlScan rest := by
  cases rest with
  | nil => rfl
  | cons d t =>
    simp only [dlScan]
    rw [if_neg (by rw [h d t rfl]; exact Bool.false_ne_true)]

theorem lpScan_cons_of (c : Char) (rest : List Char)
    (h : ∀ d t, rest = d :: t → (isAsciiAlpha c && decide (d = '(')) = false) :
    lpScan (c :: rest) = c :: lpScan rest := by
  cases rest with
  | nil => rfl
  | cons d t =>
    simp only [lpScan]
    rw [if_neg (by rw [h d t rfl]; exact Bool.false_ne_true)]

theorem dlScan_walk :
    ∀ m rest, dlSafe m = true → dlScan (m ++ rest) = m ++ dlScan rest := by
  intro m
  induction m with
  | nil => intro rest _; rfl
  | cons a m' ih =>
    intro rest hs
    cases m' with
    | nil =>
      simp only [dlSafe, Bool.not_eq_true'] at hs
      rw [List.cons_append, List.nil_append,
        dlScan_cons_of a rest (fun d t _ => by rw [hs]; rfl)]
      rfl
    | cons b m'' =>
      simp only [dlSafe, Bool.and_eq_true, Bool.not_eq_true'] at hs
      obtain ⟨h1, h2⟩ := hs
      calc dlScan ((a :: b :: m'') ++ rest)
          = a :: dlScan (b :: (m'' ++ rest)) := by
            rw [List.cons_append, List.cons_append]
            exact dlScan_cons_of a (b :: (m'' ++ rest)) (fun d t hdt => by
              obtain ⟨rfl, -⟩ := List.cons.inj hdt.symm
              exact h1)
        _ = a :: dlScan ((b :: m'') ++ rest) := by rw [List.cons_append]
        _ = a :: ((b :: m'') ++ dlScan rest) := by rw [ih rest h2]
        _ = (a :: b :: m'') ++ dlScan rest := by simp

theorem lpScan_walk :
    ∀ m rest, lpSafe m = true → lpScan (m ++ rest) = m ++ lpScan rest := by
  intro m
  induction m with
  | nil => intro rest _; rfl
  | cons a m' ih =>
    intro rest hs
    cases m' with
    | nil =>
      simp only [lpSafe, Bool.not_eq_true'] at hs
      rw [List.cons_append, List.nil_append,
        lpScan_cons_of a rest (fun d t _ => by rw [hs]; rfl)]
      rfl
    | cons b m'' =>
      simp only [lpSafe, Bool.and_eq_true, Bool.not_eq_true'] at hs
      obtain ⟨h1, h2⟩ := hs
      calc lpScan ((a :: b :: m'') ++ rest)
          = a :: lpScan (b :: (m'' ++ rest)) := by
            rw [List.cons_append, List.cons_append]
            exact lpScan_cons_of a (b :: (m'' ++ rest)) (fun d t hdt => by
              obtain ⟨rfl, -⟩ := List.cons.inj hdt.symm
              exact h1)
        _ = a :: lpScan ((b :: m'') ++ rest) := by rw [List.cons_append]
        _ = a :: ((b :: m'') ++ lpScan rest) := by rw [ih rest h2]
        _ = (a :: b :: m'') ++ lpScan rest := by simp

/-- The marker grammar is preserved by the digit-letter scanner. -/
theorem dlScan_marked {L : List (List Char)}
    (hL : ∀ fn ∈ L, dlSafe (fnMarker fn) = true) :
    ∀ n cs, cs.length ≤ n → MarkedL L cs → MarkedL L (dlScan cs) := by
  intro n
  induction n with
  | zero =>
    intro cs h1 _
    rw [List.length_eq_zero.mp (Nat.le_zero.mp h1)]
    exact MarkedL.nil
  | succ n ih =>
    intro cs hlen h
    rcases h.head_cases with rfl | ⟨c, cs', rfl, hc, h'⟩ | ⟨fn1, cs', hfn1, rfl, h'⟩
    · exact MarkedL.nil
    · rcases h'.head_cases with rfl | ⟨d, cs'', rfl, hd, h''⟩ | ⟨fn1, cs'', hfn1, rfl, h''⟩
      · exact MarkedL.chr hc MarkedL.nil
      · simp only [dlScan]
        simp only [List.length_cons] at hlen
        by_cases hcd : (isAsciiDigit c && isAsciiAlpha d) = true
        · rw [if_pos hcd]
          exact MarkedL.chr hc (MarkedL.chr (by decide)
            (MarkedL.chr hd (ih cs'' (by omega) h'')))
        · rw [if_neg hcd]
          exact MarkedL.chr hc (ih (d :: cs'') (by simp only [List.length_cons]; omega) (MarkedL.chr hd h''))
      · rw [dlScan_cons_of c (fnMarker fn1 ++ cs'') (fun d t hdt => by
          rw [fnMarker, List.cons_append] at hdt
          obtain ⟨rfl, -⟩ := List.cons.inj hdt.symm
          simp [isAsciiAlpha, alphaChars, upperLower])]
        rw [dlScan_walk _ _ (hL fn1 hfn1)]
        refine MarkedL.chr hc (MarkedL.mark hfn1 (ih cs'' ?_ h''))
        simp only [List.length_cons, List.length_append] at hlen
        have := List.length_pos.mpr (fnMarker_ne_nil fn1)
        omega
    · rw [dlScan_walk _ _ (hL fn1 hfn1)]
      refine MarkedL.mark hfn1 (ih cs' ?_ h')
      rw [List.length_append] at hlen
      have := List.length_pos.mpr (fnMarker_ne_nil fn1)
      omega

/-- The marker grammar is preserved by the letter-parenthesis scanner. -/
theorem lpScan_marked {L : List (List Char)}
    (hL : ∀ fn ∈ L, lpSafe (fnMarker fn) = true) :
    ∀ n cs, cs.length ≤ n → MarkedL L cs → MarkedL L (lpScan cs) := by
  intro n
  induction n with
  | zero =>
    intro cs h1 _
    rw [List.length_eq_zero.mp (Nat.le_zero.mp h1)]
    exact MarkedL.nil
  | succ n ih =>
    intro cs hlen h
    rcases h.head_cases with rfl | ⟨c, cs', rfl, hc, h'⟩ | ⟨fn1, cs', hfn1, rfl, h'⟩
    · exact MarkedL.nil
    · rcases h'.head_cases with rfl | ⟨d, cs'', rfl, hd, h''⟩ | ⟨fn1, cs'', hfn1, rfl, h''⟩
      · exact MarkedL.chr hc MarkedL.nil
      · simp only [lpScan]
        simp only [List.length_cons] at hlen
        by_cases hcd : (isAsciiAlpha c && decide (d = '(')) = true
        · rw [if_pos hcd]
          exact MarkedL.chr hc (MarkedL.chr (by decide)
            (MarkedL.chr hd (ih cs'' (by omega) h'')))
        · rw [if_neg hcd]
          exact MarkedL.chr hc (ih (d :: cs'') (by simp only [List.length_cons]; omega) (MarkedL.chr hd h''))
      · rw [lpScan_cons_of c (fnMarker fn1 ++ cs'') (fun d t hdt => by
          rw [fnMarker, List.cons_append] at hdt
          obtain ⟨rfl, -⟩ := List.cons.inj hdt.symm
          simp [isAsciiAlpha, alphaChars, upperLower])]
        rw [lpScan_walk _ _ (hL fn1 hfn1)]
        refine MarkedL.chr hc (MarkedL.mark hfn1 (ih cs'' ?_ h''))
        simp only [List.length_cons, List.length_append] at hlen
        have := List.length_pos.mpr (fnMarker_ne_nil fn1)
        omega
    · rw [lpScan_walk _ _ (hL fn1 hfn1)]
      refine MarkedL.mark hfn1 (ih cs' ?_ h')
      rw [List.length_append] at hlen
      have := List.length_pos.mpr (fnMarker_ne_nil fn1)
      omega

/-- Character-predicate preservation through the scanners (they only insert
`*`). -/
theorem dlScan_all {P : Char → Bool} (hstar : P '*' = true) :
    ∀ n cs, cs.length ≤ n → (∀ c ∈ cs, P c = true) →
      ∀ c ∈ dlScan cs, P c = true := by
  intro n
  induction n with
  | zero =>
    intro cs h1 _
    rw [List.length_eq_zero.mp (Nat.le_zero.mp h1)]
    intro c hc; cases hc
  | succ n ih =>
    intro cs hlen hcs
    match cs with
    | [] => intro c hc; cases hc
    | [c] => exact hcs
    | c :: d :: rest =>
      simp only [dlScan]
      simp only [List.length_cons] at hlen
      have hc := hcs c (List.mem_cons_self _ _)
      have hd := hcs d (List.mem_cons_of_mem _ (List.mem_cons_self _ _))
      have hrest : ∀ x ∈ rest, P x = true := fun x hx =>
        hcs x (List.mem_cons_of_mem _ (List.mem_cons_of_mem _ hx))
      by_cases hcd : (isAsciiDigit c && isAsciiAlpha d) = true
      · rw [if_pos hcd]
        intro x hx
        rcases List.mem_cons.mp hx with rfl | hx
        · exact hc
        rcases List.mem_cons.mp hx with rfl | hx
        · exact hstar
        rcases List.mem_cons.mp hx with rfl | hx
        · exact hd
        · exact ih rest (by omega) hrest x hx
      · rw [if_neg hcd]
        intro x hx
        rcases List.mem_cons.mp hx with rfl | hx
        · exact hc
        · exact ih (d :: rest) (by simp only [List.length_cons]; omega)
            (fun y hy => hcs y (List.mem_cons_of_mem _ hy)) x hx

theorem lpScan_all {P : Char → Bool} (hstar : P '*' = true) :
    ∀ n cs, cs.length ≤ n → (∀ c ∈ cs, P c = true) →
      ∀ c ∈ lpScan cs, P c = true := by
  intro n
  induction n with
  | zero =>
    intro cs h1 _
    rw [List.length_eq_zero.mp (Nat.le_zero.mp h1)]
    intro c hc; cases hc
  | succ n ih =>
    intro cs hlen hcs
    match cs with
    | [] => intro c hc; cases hc
    | [c] => exact hcs
    | c :: d :: rest =>
      simp only [lpScan]
      simp only [List.length_cons] at hlen
      have hc := hcs c (List.mem_cons_self _ _)
      have hd := hcs d (List.mem_cons_of_mem _ (List.mem_cons_self _ _))
      have hrest : ∀ x ∈ rest, P x = true := fun x hx =>
        hcs x (List.mem_cons_of_mem _ (List.mem_cons_of_mem _ hx))
      by_cases hcd : (isAsciiAlpha c && decide (d = '(')) = true
      · rw [if_pos hcd]
        intro x hx
        rcases List.mem_cons.mp hx with rfl | hx
        · exact hc
        rcases List.mem_cons.mp hx with rfl | hx
        · exact hstar
        rcases List.mem_cons.mp hx with rfl | hx
        · exact hd
        · exact ih rest (by omega) hrest x hx
      · rw [if_neg hcd]
        intro x hx
        rcases List.mem_cons.mp hx with rfl | hx
        · exact hc
        · exact ih (d :: rest) (by simp only [List.length_cons]; omega)
            (fun y hy => hcs y (List.mem_cons_of_mem _ hy)) x hx

/-! ## Postconditions of the scanners -/

theorem alpha_not_digit (c : Char) (h : isAsciiAlpha c = true) :
    isAsciiDigit c = false := by
  simp only [isAsciiAlpha, decide_eq_true_eq] at h
  simp only [isAsciiDigit, decide_eq_false_iff_not]
  exact fun hd => (by decide : ∀ x ∈ alphaChars, x ∉ digitChars) c h hd

theorem noDLB_tail {x : Char} {l : List Char} (h : noDLB (x :: l) = true) :
    noDLB l = true := by
  cases l with
  | nil => rfl
  | cons y t =>
    simp only [noDLB, Bool.and_eq_true] at h
    exact h.2

theorem noDLB_cons_head {x : Char} {l : List Char} (hx : isAsciiDigit x = false)
    (hl : noDLB l = true) : noDLB (x :: l) = true := by
  cases l with
  | nil => rfl
  | cons y t => simp [noDLB, hx, hl]

theorem noDLB_cons_head2 {x y : Char} {l : List Char} (hy : isAsciiAlpha y = false)
    (hl : noDLB (y :: l) = true) : noDLB (x :: y :: l) = true := by
  simp [noDLB, hy, hl]

theorem noLPB_tail {x : Char} {l : List Char} (h : noLPB (x :: l) = true) :
    noLPB l = true := by
  cases l with
  | nil => rfl
  | cons y t =>
    simp only [noLPB, Bool.and_eq_true] at h
    exact h.2

theorem noLPB_cons_head {x : Char} {l : List Char} (hx : isAsciiAlpha x = false)
    (hl : noLPB l = true) : noLPB (x :: l) = true := by
  cases l with
  | nil => rfl
  | cons y t => simp [noLPB, hx, hl]

theorem noLPB_cons_head2 {x y : Char} {l : List Char} (hy : (y = '(') = False)
    (hl : noLPB (y :: l) = true) : noLPB (x :: y :: l) = true := by
  simp [noLPB, hy, hl]

theorem dlScan_cons_head (c : Char) (cs : List Char) :
    ∃ t, dlScan (c :: cs) = c :: t := by
  cases cs with
  | nil => exact ⟨[], rfl⟩
  | cons d rest =>
    simp only [dlScan]
    by_cases h : (isAsciiDigit c && isAsciiAlpha d) = true
    · rw [if_pos h]; exact ⟨_, rfl⟩
    · rw [if_neg h]; exact ⟨_, rfl⟩

theorem lpScan_cons_head (c : Char) (cs : List Char) :
    ∃ t, lpScan (c :: cs) = c :: t := by
  cases cs with
  | nil => exact ⟨[], rfl⟩
  | cons d rest =>
    simp only [lpScan]
    by_cases h : (isAsciiAlpha c && decide (d = '(')) = true
    · rw [if_pos h]; exact ⟨_, rfl⟩
    · rw [if_neg h]; exact ⟨_, rfl⟩

/-- After the digit-letter pass, no digit is immediately followed by a
letter. -/
theorem dlScan_noDL : ∀ n cs, cs.length ≤ n → noDLB (dlScan cs) = true := by
  intro n
  induction n with
  | zero =>
    intro cs h
    rw [List.length_eq_zero.mp (Nat.le_zero.mp h)]
    rfl
  | succ n ih =>
    intro cs hlen
    match cs with
    | [] => rfl
    | [c] => rfl
    | c :: d :: rest =>
      simp only [List.length_cons] at hlen
      simp only [dlScan]
      by_cases hcd : (isAsciiDigit c && isAsciiAlpha d) = true
      · rw [if_pos hcd]
        rw [Bool.and_eq_true] at hcd
        exact noDLB_cons_head2 (by decide)
          (noDLB_cons_head (by decide)
            (noDLB_cons_head (alpha_not_digit d hcd.2) (ih rest (by omega))))
      · rw [if_neg hcd]
        obtain ⟨t, ht⟩ := dlScan_cons_head d rest
        rw [ht]
        have h2 : noDLB (d :: t) = true := by
          rw [← ht]
          exact ih (d :: rest) (by simp only [List.length_cons]; omega)
        have hcdf : (isAsciiDigit c && isAsciiAlpha d) = false :=
          Bool.eq_false_iff.mpr hcd
        simp [noDLB, hcdf, h2]

/-- After the letter-parenthesis pass, no letter is immediately followed by
an opening parenthesis. -/
theorem lpScan_noLP : ∀ n cs, cs.length ≤ n → noLPB (lpScan cs) = true := by
  intro n
  induction n with
  | zero =>
    intro cs h
    rw [List.length_eq_zero.mp (Nat.le_zero.mp h)]
    rfl
  | succ n ih =>
    intro cs hlen
    match cs with
    | [] => rfl
    | [c] => rfl
    | c :: d :: rest =>
      simp only [List.length_cons] at hlen
      simp only [lpScan]
      by_cases hcd : (isAsciiAlpha c && decide (d = '(')) = true
      · rw [if_pos hcd]
        rw [Bool.and_eq_true] at hcd
        have hd2 : d = '(' := of_decide_eq_true hcd.2
        subst hd2
        exact noLPB_cons_head2 (by decide)
          (noLPB_cons_head (by decide)
            (noLPB_cons_head (by decide) (ih rest (by omega))))
      · rw [if_neg hcd]
        obtain ⟨t, ht⟩ := lpScan_cons_head d rest
        rw [ht]
        have h2 : noLPB (d :: t) = true := by
          rw [← ht]
          exact ih (d :: rest) (by simp only [List.length_cons]; omega)
        have hcdf : (isAsciiAlpha c && decide (d = '(')) = false :=
          Bool.eq_false_iff.mpr hcd
        simp [noLPB, hcdf, h2]

/-- The letter-parenthesis pass preserves freedom from digit-letter pairs. -/
theorem lpScan_noDL :
    ∀ n cs, cs.length ≤ n → noDLB cs = true → noDLB (lpScan cs) = true := by
  intro n
  induction n with
  | zero =>
    intro cs h _
    rw [List.length_eq_zero.mp (Nat.le_zero.mp h)]
    rfl
  | succ n ih =>
    intro cs hlen hdl
    match cs with
    | [] => rfl
    | [c] => rfl
    | c :: d :: rest =>
      simp only [List.length_cons] at hlen
      simp only [lpScan]
      by_cases hcd : (isAsciiAlpha c && decide (d = '(')) = true
      · rw [if_pos hcd]
        rw [Bool.and_eq_true] at hcd
        have hd' : d = '(' := of_decide_eq_true hcd.2
        subst hd'
        have hrest : noDLB rest = true := noDLB_tail (noDLB_tail hdl)
        exact noDLB_cons_head2 (by decide)
          (noDLB_cons_head (by decide)
            (noDLB_cons_head (by decide) (ih rest (by omega) hrest)))
      · rw [if_neg hcd]
        obtain ⟨t, ht⟩ := lpScan_cons_head d rest
        rw [ht]
        simp only [noDLB, Bool.and_eq_true] at hdl
        have h2 : noDLB (d :: t) = true := by
          rw [← ht]
          exact ih (d :: rest) (by simp only [List.length_cons]; omega) hdl.2
        simp [noDLB, hdl.1, h2]

/-! ## Identity cases of the protection loops -/

theorem protect_fold_id :
    ∀ (l : List (List Char)) cs, (∀ fn ∈ l, hasMatch (fnPat fn) cs = false) →
      l.foldl (fun s fn => replaceList (fnPat fn) (fnMarker fn) s) cs = cs := by
  intro l
  induction l with
  | nil => intro cs _; rfl
  | cons fn l' ih =>
    intro cs h
    simp only [List.foldl_cons]
    rw [replaceList_no_match _ _ cs (h fn (List.mem_cons_self _ _))]
    exact ih cs fun x hx => h x (List.mem_cons_of_mem _ hx)

theorem mem_F_fnMarker (fn : List Char) : 'F' ∈ fnMarker fn := by
  simp [fnMarker]

theorem unprot_fold_id :
    ∀ (l : List (List Char)) cs, (∀ c ∈ cs, isUpperAscii c = false) →
      l.foldl (fun s fn => replaceList (fnMarker fn) (fnPat fn) s) cs = cs := by
  intro l
  induction l with
  | nil => intro cs _; rfl
  | cons fn l' ih =>
    intro cs h
    simp only [List.foldl_cons]
    have hnm : hasMatch (fnMarker fn) cs = false := by
      by_contra hM
      rw [Bool.not_eq_false] at hM
      have := h 'F' (mem_of_hasMatch _ cs hM 'F' (mem_F_fnMarker fn))
      exact absurd this (by decide)
    rw [replaceList_no_match _ _ cs hnm]
    exact ih cs h

/-! ## Stage facts for the fallback normalizer -/

theorem asciiLower_noUpper (c : Char) : isUpperAscii (asciiLower c) = false := by
  unfold asciiLower
  cases hf : upperLower.find? (fun p => p.1 = c) with
  | some p =>
    exact (by decide : ∀ q ∈ upperLower, isUpperAscii q.2 = false) p
      (List.mem_of_find?_eq_some hf)
  | none =>
    simp only [isUpperAscii, decide_eq_false_iff_not]
    intro hmem
    obtain ⟨p, hp, hpc⟩ := List.mem_map.mp hmem
    have := List.find?_eq_none.mp hf p hp
    simp [hpc] at this

theorem asciiLower_pres {P : Char → Bool} (hP : ∀ q ∈ upperLower, P q.2 = true)
    (c : Char) (hc : P c = true) : P (asciiLower c) = true := by
  unfold asciiLower
  cases hf : upperLower.find? (fun p => p.1 = c) with
  | some p => exact hP p (List.mem_of_find?_eq_some hf)
  | none => exact hc

theorem mem_trimPy {c : Char} {cs : List Char} (h : c ∈ trimPy cs) : c ∈ cs := by
  unfold trimPy at h
  rw [List.mem_reverse] at h
  have h2 := (List.dropWhile_sublist _).mem h
  rw [List.mem_reverse] at h2
  exact (List.dropWhile_sublist _).mem h2

/-- Generic predicate preservation through a protection/restoration loop. -/
theorem fold_replace_all {P : Char → Bool} (pat rep : List Char → List Char) :
    ∀ (l : List (List Char)), (∀ fn ∈ l, ∀ c ∈ rep fn, P c = true) →
      ∀ cs, (∀ c ∈ cs, P c = true) →
      ∀ c ∈ l.foldl (fun s fn => replaceList (pat fn) (rep fn) s) cs, P c = true := by
  intro l
  induction l with
  | nil => intro _ cs h; exact h
  | cons fn l' ih =>
    intro hl cs h
    simp only [List.foldl_cons]
    exact ih (fun x hx => hl x (List.mem_cons_of_mem _ hx)) _
      (replaceList_all _ _ (hl fn (List.mem_cons_self _ _)) cs.length cs le_rfl h)

/--
C9 counterexample.  The fallback normalizer inserts no multiplication after a
closing parenthesis (`"(a)(b)"` is returned verbatim, `")("` intact); the
digit-letter insertion is skipped when the letter starts a protected function
application (`"2sin(x)"` is returned with the digit-letter pair `2s` intact,
because the protection marker `__FN__sin__(` hides the letter from the
digit-letter regex); and a math-mode delimiter can survive when whitespace
separated its two characters (`"\ ("` becomes `"\("`).
-/
theorem c9_counterexample :
    basic_string_normalization "(a)(b)" = "(a)(b)" ∧
    basic_string_normalization "2sin(x)" = "2sin(x)" ∧
    noDLB (basic_string_normalization "2sin(x)").data = false ∧
    basic_string_normalization "\\ (" = "\\(" := by
  refine ⟨by decide, by decide, by decide, by decide⟩

/--
C9 (amended).  For every input string, the fallback normalizer returns a
string that is whitespace-free, contains no upper-case ASCII letter
(lower-casing), no `$` and no `^` (each `^` having been converted to `**`);
multiplication is inserted between a digit and a following letter and between
a letter and a following opening parenthesis — not after a closing
parenthesis — with both insertions masked inside protected function-name
applications; in particular, when the prepared (delimiter-stripped,
whitespace-free, lower-cased, `^`-converted) string contains no protected
function application, the result contains no digit-letter adjacency and no
letter-parenthesis adjacency at all.
-/
theorem c9_normalizer_postconditions (s : String) :
    (∀ c ∈ (basic_string_normalization s).data, pySpace c = false) ∧
    (∀ c ∈ (basic_string_normalization s).data, isUpperAscii c = false) ∧
    '$' ∉ (basic_string_normalization s).data ∧
    '^' ∉ (basic_string_normalization s).data ∧
    ((fnNames.all fun fn => !hasMatch (fnPat fn) (bsnCaret (bsnMid s.data))) = true →
      noDLB (basic_string_normalization s).data = true ∧
      noLPB (basic_string_normalization s).data = true) := by
  have hdata : (basic_string_normalization s).data
      = unprotectAll (lpScan (dlScan (protectAll (bsnCaret (bsnMid s.data))))) := by
    unfold basic_string_normalization
    with_reducible rfl
  have chain : ∀ (P : Char → Bool), P '*' = true →
      (∀ fn ∈ fnNames, ∀ c ∈ fnMarker fn, P c = true) →
      (∀ fn ∈ fnNames, ∀ c ∈ fnPat fn, P c = true) →
      (∀ c ∈ bsnCaret (bsnMid s.data), P c = true) →
      ∀ c ∈ (basic_string_normalization s).data, P c = true := by
    intro P hstar hmk hpt hmid c hc
    rw [hdata] at hc
    refine fold_replace_all fnMarker fnPat fnNames hpt _ ?_ c hc
    intro x hx
    refine lpScan_all hstar _ _ le_rfl ?_ x hx
    intro y hy
    refine dlScan_all hstar _ _ le_rfl ?_ y hy
    intro z hz
    exact fold_replace_all fnPat fnMarker fnNames hmk _ hmid z hz
  -- the prepared string is whitespace-free …
  have hmid_ws : ∀ c ∈ bsnMid s.data, (!pySpace c) = true := by
    intro c hc
    simp only [bsnMid] at hc
    obtain ⟨x, hx, rfl⟩ := List.mem_map.mp hc
    exact asciiLower_pres (P := fun c => !pySpace c) (by decide) x
      (List.mem_filter.mp hx).2
  have hmid2_ws : ∀ c ∈ bsnCaret (bsnMid s.data), (!pySpace c) = true :=
    fun c hc => replaceList_all (P := fun c => !pySpace c) _ _ (by decide)
      _ _ le_rfl hmid_ws c hc
  -- … lower-cased …
  have hmid2_up : ∀ c ∈ bsnCaret (bsnMid s.data), (!isUpperAscii c) = true := by
    intro c hc
    refine replaceList_all (P := fun c => !isUpperAscii c) _ _ (by decide)
      _ _ le_rfl ?_ c hc
    intro x hx
    simp only [bsnMid] at hx
    obtain ⟨y, -, rfl⟩ := List.mem_map.mp hx
    simp [asciiLower_noUpper y]
  -- … `$`-free …
  have hmid2_dollar : ∀ c ∈ bsnCaret (bsnMid s.data), (!(decide (c = '$'))) = true := by
    intro c hc
    refine replaceList_all (P := fun c => !(decide (c = '$'))) _ _ (by decide)
      _ _ le_rfl ?_ c hc
    intro x hx
    simp only [bsnMid] at hx
    obtain ⟨y, hy, rfl⟩ := List.mem_map.mp hx
    refine asciiLower_pres (P := fun c => !(decide (c = '$'))) (by decide) y ?_
    have hy5 := (List.mem_filter.mp hy).1
    by_cases hyd : y = '$'
    · subst hyd
      exact absurd hy5 (replaceList_single_gone '$' [] (by simp) _)
    · simp [hyd]
  -- … and `^`-free.
  have hmid2_caret : ∀ c ∈ bsnCaret (bsnMid s.data), (!(decide (c = '^'))) = true := by
    intro c hc
    by_cases hcc : c = '^'
    · subst hcc
      exact absurd hc (replaceList_single_gone '^' ['*', '*'] (by decide) _)
    · simp [hcc]
  refine ⟨?_, ?_, ?_, ?_, ?_⟩
  · intro c hc
    have := chain (fun c => !pySpace c) (by decide)
      (fun fn hfn c hc => by simp [(markers_chars_ok fn hfn c hc).1])
      (fun fn hfn c hc => by simp [(fnPat_chars_ok2 fn hfn c hc).1])
      hmid2_ws c hc
    simpa using this
  · -- upper-case freedom via the marker grammar
    have hprot : MarkedL fnNames (protectAll (bsnCaret (bsnMid s.data))) :=
      protect_fold fnNames (fun x hx => hx) _
        (MarkedL.of_noUpper _ (fun c hc => by simpa using hmid2_up c hc))
    have hdl := dlScan_marked (fun fn hfn => (markers_scan_safe fn hfn).1)
      _ _ le_rfl hprot
    have hlp := lpScan_marked (fun fn hfn => (markers_scan_safe fn hfn).2)
      _ _ le_rfl hdl
    intro c hc
    rw [hdata] at hc
    exact unprot_fold fnNames fnNames _ (fun x hx => hx) (fun x hx => hx)
      (fun x hx => hx) hlp c hc
  · intro hmem
    have := chain (fun c => !(decide (c = '$'))) (by decide)
      (fun fn hfn c hc => by simp [(markers_chars_ok fn hfn c hc).2.1])
      (fun fn hfn c hc => by simp [(fnPat_chars_ok2 fn hfn c hc).2.1])
      hmid2_dollar '$' hmem
    simp at this
  · intro hmem
    have := chain (fun c => !(decide (c = '^'))) (by decide)
      (fun fn hfn c hc => by simp [(markers_chars_ok fn hfn c hc).2.2])
      (fun fn hfn c hc => by simp [(fnPat_chars_ok2 fn hfn c hc).2.2])
      hmid2_caret '^' hmem
    simp at this
  · intro hfn
    have hfn' : ∀ fn ∈ fnNames, hasMatch (fnPat fn) (bsnCaret (bsnMid s.data)) = false := by
      intro fn h
      have := List.all_eq_true.mp hfn fn h
      simpa using this
    have hidp : protectAll (bsnCaret (bsnMid s.data)) = bsnCaret (bsnMid s.data) :=
      protect_fold_id fnNames _ hfn'
    have hscan_up : ∀ c ∈ lpScan (dlScan (bsnCaret (bsnMid s.data))),
        isUpperAscii c = false := by
      intro c hc
      have := lpScan_all (P := fun c => !isUpperAscii c) (by decide) _ _ le_rfl
        (fun y hy => dlScan_all (by decide) _ _ le_rfl hmid2_up y hy) c hc
      simpa using this
    have hidu : unprotectAll (lpScan (dlScan (bsnCaret (bsnMid s.data))))
        = lpScan (dlScan (bsnCaret (bsnMid s.data))) :=
      unprot_fold_id fnNames _ hscan_up
    constructor
    · rw [hdata, hidp, hidu]
      exact lpScan_noDL _ _ le_rfl (dlScan_noDL _ _ le_rfl)
    · rw [hdata, hidp, hidu]
      exact lpScan_noLP _ _ le_rfl

/-- Witness for the amended C9: `"2x+(y)"` contains no protected function
application, and its normalization `"2*x+(y)"` has no digit-letter and no
letter-parenthesis adjacency. -/
theorem c9_witness :
    (fnNames.all fun fn => !hasMatch (fnPat fn) (bsnCaret (bsnMid ("2x+(y)" : String).data))) = true ∧
    noDLB (basic_string_normalization "2x+(y)").data = true ∧
    noLPB (basic_string_normalization "2x+(y)").data = true := by
  refine ⟨by decide, ?_, ?_⟩
  · exact ((c9_normalizer_postconditions "2x+(y)").2.2.2.2 (by decide)).1
  · exact ((c9_normalizer_postconditions "2x+(y)").2.2.2.2 (by decide)).2

end MathEngine
